import Mathlib

/-!
Verification development for the goosegorm schema-migration core.

The Go sources are embedded shallowly:

* `schema` package (schema builder and simulated state; the implementation
  accompanies `internal/schema/schema_test.go`): `Column`, `Table`,
  `SchemaState` and the builder operations.  Go maps (`map[string]*Table`,
  `map[string]*Column`) are modelled as association lists with unique keys;
  map assignment replaces an existing binding or appends a fresh one, and
  iteration follows the list order (Go's map iteration order is
  unspecified; the association-list order is the canonical order used
  here).
* `diff` package (`CompareSchema` and helpers): `Diff`, `ColumnDiff`,
  `TableDiff`, `IndexDiff`, `buildExpectedSchema`, `compareColumns`,
  `compareIndexes`, `mapGoTypeToSQLType`, `toSnakeCase`.
* `modelreflect` package: `ParsedModel`, `Field`, `IndexInfo`,
  `ParsedModel.getTableName`.
* `generator` package: the simulate effects of generated migration files
  (`generateUpSimulation` / `generateDownSimulation`) as lists of
  schema-builder calls (`SimOp`), and the version allocator
  `generateVersion`.
* `runner` and `versioner` packages: registry, ledger, `Migrate`,
  `Rollback`, `SimulateSchema`.
-/

/-- Lookup in a Go map modelled as an association list. -/
def mapGet {α : Type} (m : List (String × α)) (k : String) : Option α :=
  (m.find? (fun p => p.1 == k)).map (fun p => p.2)

/-- Go map assignment `m[k] = v`: replace the binding if the key is
present, otherwise append a fresh binding. -/
def mapSet {α : Type} (m : List (String × α)) (k : String) (v : α) : List (String × α) :=
  if (m.find? (fun p => p.1 == k)).isSome then
    m.map (fun p => if p.1 == k then (k, v) else p)
  else m ++ [(k, v)]

/-- Go `delete(m, k)`. -/
def mapDel {α : Type} (m : List (String × α)) (k : String) : List (String × α) :=
  m.filter (fun p => p.1 != k)

/-- Go `schema.Column` (file accompanying internal/schema/schema_test.go):
name, type string, nullable / primary-key / unique flags.  The Go field
`Type` is called `colType` here because `type` is reserved in Lean. -/
structure Column where
  name : String
  colType : String
  null : Bool
  pk : Bool
  unique : Bool
  deriving DecidableEq, Repr

/-- Go `schema.Table`: a name, a map from column name to column, ordered
constraint expressions and an ordered list of index names (the simulated
state retains only the names of indexes). -/
structure Table where
  name : String
  columns : List (String × Column)
  constraints : List String
  indexes : List String
  deriving DecidableEq, Repr

/-- Go `schema.SchemaState`: map from table name to table. -/
structure SchemaState where
  tables : List (String × Table)
  deriving DecidableEq, Repr

/-- `schema.NewSchemaBuilder()` starts from an empty state. -/
def emptySchema : SchemaState := ⟨[]⟩

/-- The empty table inserted by `CreateTable` / `AlterTable`. -/
def newTable (name : String) : Table := ⟨name, [], [], []⟩

/-- Go `SchemaBuilder.CreateTable`: insert an empty table (overwriting an
existing one, last write wins). -/
def SchemaState.createTable (s : SchemaState) (name : String) : SchemaState :=
  ⟨mapSet s.tables name (newTable name)⟩

/-- Go `SchemaBuilder.AlterTable`: return the existing table, creating an
empty one on demand when absent. -/
def SchemaState.alterTable (s : SchemaState) (name : String) : SchemaState :=
  if (mapGet s.tables name).isSome then s else ⟨mapSet s.tables name (newTable name)⟩

/-- Go `SchemaBuilder.DropTable`: remove the table, no-op when absent. -/
def SchemaState.dropTable (s : SchemaState) (name : String) : SchemaState :=
  ⟨mapDel s.tables name⟩

/-- In Go the `TableBuilder` holds a pointer into the state's table map and
each fluent operation mutates that table in place; here a table-level
function is applied at the named binding. -/
def SchemaState.withTable (s : SchemaState) (name : String) (f : Table → Table) : SchemaState :=
  ⟨s.tables.map (fun p => if p.1 == name then (p.1, f p.2) else p)⟩

/-- Go `TableBuilder.AddColumnWithOptions`. -/
def Table.addColumnWithOptions (t : Table) (name colType : String) (null pk unique : Bool) : Table :=
  { t with columns := mapSet t.columns name ⟨name, colType, null, pk, unique⟩ }

/-- Go `TableBuilder.AddColumn` (null, pk, unique all default to false). -/
def Table.addColumn (t : Table) (name colType : String) : Table :=
  t.addColumnWithOptions name colType false false false

/-- Go `TableBuilder.DropColumn`. -/
def Table.dropColumn (t : Table) (name : String) : Table :=
  { t with columns := mapDel t.columns name }

/-- Go `TableBuilder.AddConstraint`. -/
def Table.addConstraint (t : Table) (expr : String) : Table :=
  { t with constraints := t.constraints ++ [expr] }

/-- Go `TableBuilder.AddIndex`: append the index name. -/
def Table.addIndex (t : Table) (name : String) : Table :=
  { t with indexes := t.indexes ++ [name] }

/-- Go `TableBuilder.RenameColumn`: when the old name is bound, rebind the
(renamed) column under the new name and delete the old binding; silently a
no-op otherwise. -/
def Table.renameColumn (t : Table) (oldName newName : String) : Table :=
  match mapGet t.columns oldName with
  | some col =>
      { t with columns := mapDel (mapSet t.columns newName { col with name := newName }) oldName }
  | none => t

/-- Go `TableBuilder.ModifyColumn`: when the column is bound, overwrite its
type and flags in place; silently a no-op otherwise. -/
def Table.modifyColumn (t : Table) (name colType : String) (null pk unique : Bool) : Table :=
  match mapGet t.columns name with
  | some col =>
      { t with columns :=
          mapSet t.columns name { col with colType := colType, null := null, pk := pk, unique := unique } }
  | none => t

/-- Modelled from the spec: `TableBuilder.DropIndex`, invoked by generated
migrations and by the loader interpreter, has no implementation under the
sources provided; the spec lists `DropIndex(name)` among the table-handle
operations, so it is modelled as removing the named index from the
table's index list. -/
def Table.dropIndexByName (t : Table) (name : String) : Table :=
  { t with indexes := t.indexes.filter (fun n => n != name) }

/-- Go `modelreflect.IndexInfo`: a named index declaration from a GORM
tag. -/
structure IndexInfo where
  name : String
  unique : Bool
  priority : Nat
  deriving DecidableEq, Repr

/-- Go `modelreflect.Field`: a parsed struct field (name, Go type, gorm
tag, goosegorm tag, named index declarations). -/
structure ModelField where
  name : String
  fieldType : String
  gormTag : String
  gooseTag : String
  fieldIndexes : List IndexInfo
  deriving DecidableEq, Repr

/-- Go `modelreflect.ParsedModel` (the fields the diff engine reads). -/
structure ParsedModel where
  name : String
  managed : Bool
  fields : List ModelField
  deriving DecidableEq, Repr

/-- Go `strings.Contains`. -/
def goContains (s sub : String) : Bool :=
  (List.range (s.data.length + 1)).any (fun i => sub.data.isPrefixOf (s.data.drop i))

/-- Go `isAllUppercase` (diff package and modelreflect parser). -/
def isAllUppercase (s : String) : Bool :=
  !s.data.isEmpty && s.data.all (fun r => 'A' ≤ r && r ≤ 'Z')

/-- Go `toSnakeCase` as defined (identically) in the diff package and the
modelreflect parser: all-uppercase names are lowered wholesale; otherwise
an underscore is inserted before every interior capital and the result is
lowered. -/
def toSnakeCase (s : String) : String :=
  if isAllUppercase s then String.mk (s.data.map Char.toLower)
  else
    let body := s.data.foldl
      (fun (acc : List Char) r =>
        if !acc.isEmpty && 'A' ≤ r && r ≤ 'Z' then acc ++ ['_', r] else acc ++ [r]) []
    String.mk (body.map Char.toLower)

/-- Go `ParsedModel.GetTableName`: snake_case of the struct name. -/
def ParsedModel.getTableName (m : ParsedModel) : String :=
  toSnakeCase m.name

/-- Go `strings.TrimSpace`. -/
def goTrimSpace (s : String) : String :=
  String.mk (((s.data.dropWhile Char.isWhitespace).reverse.dropWhile Char.isWhitespace).reverse)

/-- Go `strings.TrimPrefix(s, "*")`: strip one leading star. -/
def goTrimStar (s : String) : String :=
  match s.data with
  | c :: cs => if c == '*' then String.mk cs else s
  | [] => s

/-- Go `diff.mapGoTypeToSQLType`. -/
def mapGoTypeToSQLType (goType : String) : String :=
  let g := goTrimStar (goTrimSpace goType)
  if g == "string" then "string"
  else if g == "int" || g == "int64" then "bigint"
  else if g == "int8" then "tinyint"
  else if g == "int16" then "smallint"
  else if g == "int32" then "integer"
  else if g == "uint" || g == "uint64" then "bigint"
  else if g == "uint8" then "tinyint"
  else if g == "uint16" then "smallint"
  else if g == "uint32" then "integer"
  else if g == "float32" || g == "float64" then "float"
  else if g == "bool" then "bool"
  else if g == "time.Time" then "timestamp"
  else "string"

/-- Go `diff.isRequired`: true unless the gorm tag contains a not-null
marker. -/
def isRequired (gormTag : String) : Bool :=
  !(goContains gormTag "not null") && !(goContains gormTag "NOT NULL")

/-- Go `diff.isPrimaryKey`. -/
def isPrimaryKey (gormTag : String) : Bool :=
  goContains gormTag "primaryKey" || goContains gormTag "primary_key"

/-- Go `diff.isUnique`. -/
def isUnique (gormTag : String) : Bool :=
  goContains gormTag "unique" || goContains gormTag "uniqueIndex"

/-- Go `diff.IndexDiff`: name, uniqueness flag, ordered field list. -/
structure IndexDiff where
  name : String
  unique : Bool
  fields : List String
  deriving DecidableEq, Repr

/-- Go `diff.ColumnDiff`: the new column values plus `OldType`, the only
prior value recorded for a modification. -/
structure ColumnDiff where
  name : String
  colType : String
  oldType : String
  null : Bool
  pk : Bool
  unique : Bool
  deriving DecidableEq, Repr

/-- Go `diff.TableDiff`: expected table shape (ordered columns, index map
keyed by index name). -/
structure TableDiff where
  name : String
  columns : List ColumnDiff
  indexes : List (String × IndexDiff)
  deriving DecidableEq, Repr

/-- Go `diff.Diff`: tagged by the `Type` string, carrying the table name
and the optional column/table/index payloads.  The Go field `Type` is
called `ty` here. -/
structure Diff where
  ty : String
  tableName : String
  column : Option ColumnDiff
  table : Option TableDiff
  index : Option IndexDiff
  deriving DecidableEq, Repr

/-- The `ColumnDiff` built from a parsed model field inside
`buildExpectedSchema`. -/
def buildColumnDiff (f : ModelField) : ColumnDiff :=
  ⟨toSnakeCase f.name, mapGoTypeToSQLType f.fieldType, "",
    !(isRequired f.gormTag), isPrimaryKey f.gormTag, isUnique f.gormTag⟩

/-- The per-field index processing of `buildExpectedSchema`: a repeated
index name extends the existing entry's field list (composite index), a
fresh name starts a new entry. -/
def mergeFieldIndexes (tableIdx : List (String × IndexDiff)) (fieldName : String)
    (idxs : List IndexInfo) : List (String × IndexDiff) :=
  idxs.foldl
    (fun m idx =>
      match mapGet m idx.name with
      | some ex => mapSet m idx.name { ex with fields := ex.fields ++ [toSnakeCase fieldName] }
      | none => mapSet m idx.name ⟨idx.name, idx.unique, [toSnakeCase fieldName]⟩)
    tableIdx

/-- Go `diff.buildExpectedSchema`: fold the managed models into a map from
table name to expected `TableDiff`; the per-table index map is accumulated
across models sharing a table name, while a later model's columns replace
an earlier model's columns for the same table. -/
def buildExpectedSchema (models : List ParsedModel) : List (String × TableDiff) :=
  (models.foldl
    (fun (acc : List (String × TableDiff) × List (String × List (String × IndexDiff))) model =>
      if !model.managed then acc
      else
        let tableName := model.getTableName
        let ti0 := (mapGet acc.2 tableName).getD []
        let colsTi := model.fields.foldl
          (fun (p : List ColumnDiff × List (String × IndexDiff)) f =>
            (p.1 ++ [buildColumnDiff f], mergeFieldIndexes p.2 f.name f.fieldIndexes))
          ([], ti0)
        (mapSet acc.1 tableName ⟨tableName, colsTi.1, colsTi.2⟩, mapSet acc.2 tableName colsTi.2))
    ([], [])).1

/-- Go `diff.compareColumns`: walk the expected columns in declared order,
emitting `add_column` for a missing column and `modify_column` (carrying
the new values and the prior type) when the (type, null, pk, unique)
tuple differs; then emit `drop_column` for simulated columns absent from
the expected set (the dropped column's payload holds only the name, the
other fields are Go zero values). -/
def compareColumns (simulatedTable : Table) (expectedTable : TableDiff) : List Diff :=
  let addMod := expectedTable.columns.flatMap
    (fun expectedCol =>
      match mapGet simulatedTable.columns expectedCol.name with
      | none => [⟨"add_column", expectedTable.name, some expectedCol, none, none⟩]
      | some simCol =>
          if simCol.colType != expectedCol.colType || simCol.null != expectedCol.null
              || simCol.pk != expectedCol.pk || simCol.unique != expectedCol.unique then
            [⟨"modify_column", expectedTable.name,
              some ⟨expectedCol.name, expectedCol.colType, simCol.colType,
                expectedCol.null, expectedCol.pk, expectedCol.unique⟩, none, none⟩]
          else [])
  let drops := simulatedTable.columns.flatMap
    (fun p =>
      if (expectedTable.columns.any (fun c => c.name == p.1)) then []
      else [⟨"drop_column", expectedTable.name, some ⟨p.1, "", "", false, false, false⟩, none, none⟩])
  addMod ++ drops

/-- First-occurrence deduplication: the canonical iteration order used
here for the Go name-set `map[string]bool` built by `compareIndexes`
(Go's own set-iteration order is unspecified). -/
def dedupNames : List String → List String
  | [] => []
  | x :: xs => x :: (dedupNames xs).filter (fun y => y != x)

/-- Go `diff.compareIndexes`: `add_index` for every expected index name
absent from the simulated name list; `drop_index` for every simulated
index name (deduplicated, as in the Go name-set) absent from the expected
map — carrying only the name, the uniqueness flag and field list being Go
zero values because the simulated state retains index names only. -/
def compareIndexes (simulatedTable : Table) (expectedTable : TableDiff) (tableName : String) :
    List Diff :=
  let adds := expectedTable.indexes.flatMap
    (fun p =>
      if simulatedTable.indexes.contains p.1 then []
      else [⟨"add_index", tableName, none, none, some p.2⟩])
  let drops := (dedupNames simulatedTable.indexes).flatMap
    (fun n =>
      if (mapGet expectedTable.indexes n).isSome then []
      else [⟨"drop_index", tableName, none, none, some ⟨n, false, []⟩⟩])
  adds ++ drops

/-- Go `diff.CompareSchema`: `create_table` (carrying the full expected
table) for expected tables missing from the simulated state, otherwise
the column and index comparisons; finally `drop_table` for simulated
tables absent from the expected schema.  The Go function's error result
is always nil and is omitted. -/
def compareSchema (simulatedSchema : SchemaState) (models : List ParsedModel) : List Diff :=
  let expectedSchema := buildExpectedSchema models
  let part1 := expectedSchema.flatMap
    (fun p =>
      match mapGet simulatedSchema.tables p.1 with
      | none => [⟨"create_table", p.1, none, some p.2, none⟩]
      | some simulatedTable =>
          compareColumns simulatedTable p.2 ++ compareIndexes simulatedTable p.2 p.1)
  let part2 := simulatedSchema.tables.flatMap
    (fun p =>
      if (mapGet expectedSchema p.1).isSome then []
      else [⟨"drop_table", p.1, none, none, none⟩])
  part1 ++ part2

/-- One schema-builder call emitted into a generated migration's
simulation branch (`Generator.generateUpSimulation` /
`generateDownSimulation` emit these as Go source text; here they are
represented as data and interpreted by `applySimOp`).
`createTableChain tn cols` is the fluent chain
`sim.CreateTable(tn).AddColumnWithOptions(...)...` — one call per listed
column; the remaining constructors are the single
`sim.AlterTable(tn).Op(...)` / `sim.DropTable(tn)` calls. -/
inductive SimOp
  | createTableChain (tableName : String) (cols : List ColumnDiff)
  | dropTable (tableName : String)
  | addColumnWithOptions (tableName colName colType : String) (null pk unique : Bool)
  | dropColumn (tableName colName : String)
  | modifyColumn (tableName colName colType : String) (null pk unique : Bool)
  | addIndex (tableName indexName : String)
  | dropIndex (tableName indexName : String)
  deriving DecidableEq, Repr

/-- Interpret one emitted builder call against the schema state, with the
builder semantics of the schema package. -/
def applySimOp (s : SchemaState) : SimOp → SchemaState
  | .createTableChain tn cols =>
      (s.createTable tn).withTable tn
        (fun t => cols.foldl (fun t c => t.addColumnWithOptions c.name c.colType c.null c.pk c.unique) t)
  | .dropTable tn => s.dropTable tn
  | .addColumnWithOptions tn cn ct nl pk uq =>
      (s.alterTable tn).withTable tn (fun t => t.addColumnWithOptions cn ct nl pk uq)
  | .dropColumn tn cn => (s.alterTable tn).withTable tn (fun t => t.dropColumn cn)
  | .modifyColumn tn cn ct nl pk uq =>
      (s.alterTable tn).withTable tn (fun t => t.modifyColumn cn ct nl pk uq)
  | .addIndex tn n => (s.alterTable tn).withTable tn (fun t => t.addIndex n)
  | .dropIndex tn n => (s.alterTable tn).withTable tn (fun t => t.dropIndexByName n)

/-- Go `Generator.generateUpSimulation`: the builder calls of the generated
`Up` simulation branch, one case per diff kind, in diff-list order.  For
`create_table` only the expected columns are materialized — the indexes
carried by the diff's `TableDiff` are not emitted.  The `add_index` /
`drop_index` cases are guarded on a present index payload as in the Go
source; for the column cases the Go source dereferences `d.Column`
unconditionally (a nil payload would crash the generator), so a missing
payload emits nothing here. -/
def upSimOps (diffs : List Diff) : List SimOp :=
  diffs.flatMap
    (fun d =>
      if d.ty == "create_table" then
        match d.table with
        | some t => [.createTableChain d.tableName t.columns]
        | none => []
      else if d.ty == "drop_table" then [.dropTable d.tableName]
      else if d.ty == "add_column" then
        match d.column with
        | some c => [.addColumnWithOptions d.tableName c.name c.colType c.null c.pk c.unique]
        | none => []
      else if d.ty == "drop_column" then
        match d.column with
        | some c => [.dropColumn d.tableName c.name]
        | none => []
      else if d.ty == "modify_column" then
        match d.column with
        | some c => [.modifyColumn d.tableName c.name c.colType c.null c.pk c.unique]
        | none => []
      else if d.ty == "add_index" then
        match d.index with
        | some i => [.addIndex d.tableName i.name]
        | none => []
      else if d.ty == "drop_index" then
        match d.index with
        | some i => [.dropIndex d.tableName i.name]
        | none => []
      else [])

/-- Go `Generator.generateDownSimulation`: the reverse-order builder calls
of the generated `Down` simulation branch.  A reversed `drop_table`
recreates only an empty table; a reversed `modify_column` reverts the
type to `OldType` but re-applies the diff's (new) null/pk/unique flags,
the prior flags not being recorded in `ColumnDiff`. -/
def downSimOps (diffs : List Diff) : List SimOp :=
  diffs.reverse.flatMap
    (fun d =>
      if d.ty == "create_table" then [.dropTable d.tableName]
      else if d.ty == "drop_table" then [.createTableChain d.tableName []]
      else if d.ty == "add_column" then
        match d.column with
        | some c => [.dropColumn d.tableName c.name]
        | none => []
      else if d.ty == "drop_column" then
        match d.column with
        | some c => [.addColumnWithOptions d.tableName c.name c.colType c.null c.pk c.unique]
        | none => []
      else if d.ty == "modify_column" then
        match d.column with
        | some c => [.modifyColumn d.tableName c.name c.oldType c.null c.pk c.unique]
        | none => []
      else if d.ty == "add_index" then
        match d.index with
        | some i => [.dropIndex d.tableName i.name]
        | none => []
      else if d.ty == "drop_index" then
        match d.index with
        | some i => [.addIndex d.tableName i.name]
        | none => []
      else [])

/-- The table a builder call addresses (every constructor carries the
table name first). -/
def SimOp.target : SimOp → String
  | .createTableChain tn _ => tn
  | .dropTable tn => tn
  | .addColumnWithOptions tn _ _ _ _ _ => tn
  | .dropColumn tn _ => tn
  | .modifyColumn tn _ _ _ _ _ => tn
  | .addIndex tn _ => tn
  | .dropIndex tn _ => tn

/-- Proof abbreviation: the effect of one builder call on the binding of
its own target table (a builder call reads and writes only that
binding). -/
def applyTableOp (b : Option Table) : SimOp → Option Table
  | .createTableChain tn cols =>
      some (cols.foldl
        (fun t c => t.addColumnWithOptions c.name c.colType c.null c.pk c.unique)
        (newTable tn))
  | .dropTable _ => none
  | .addColumnWithOptions tn cn ct nl pk uq =>
      some ((b.getD (newTable tn)).addColumnWithOptions cn ct nl pk uq)
  | .dropColumn tn cn => some ((b.getD (newTable tn)).dropColumn cn)
  | .modifyColumn tn cn ct nl pk uq =>
      some ((b.getD (newTable tn)).modifyColumn cn ct nl pk uq)
  | .addIndex tn n => some ((b.getD (newTable tn)).addIndex n)
  | .dropIndex tn n => some ((b.getD (newTable tn)).dropIndexByName n)

/-- Proof abbreviation: fold builder calls over one table binding. -/
def applyTableOps (ops : List SimOp) (b : Option Table) : Option Table :=
  ops.foldl applyTableOp b

/-- Fold a list of emitted builder calls over the state: the simulate
effect of a generated migration. -/
def applySimOps (ops : List SimOp) (s : SchemaState) : SchemaState :=
  ops.foldl applySimOp s

/-- Go `runner.Migration` as the runner uses it: the version and name, the
simulate effect of `Up` when handed the schema builder (an error aborts
replay), and the success of `Up` / `Down` against the real store
(modelled as outcomes, the store itself being an external collaborator). -/
structure Migration where
  version : String
  name : String
  upSim : SchemaState → Except String SchemaState
  upOk : Bool
  downOk : Bool

/-- Go `runner.Registry`: a map from version to migration
(`RegisterMigration` keys by `m.Version()`, last registration wins). -/
def registerMigration (r : List (String × Migration)) (m : Migration) :
    List (String × Migration) :=
  mapSet r m.version m

/-- A registry built by registering a list of migrations in order. -/
def registryOfList (ms : List Migration) : List (String × Migration) :=
  ms.foldl registerMigration []

/-- Codepoint comparison of characters (Go compares strings bytewise; on
the ASCII version strings used here the byte order and the codepoint
order agree). -/
def charLtB (a b : Char) : Bool := a.toNat < b.toNat

/-- Executable lexicographic strict comparison of character lists. -/
def listLtB : List Char → List Char → Bool
  | [], [] => false
  | [], _ :: _ => true
  | _ :: _, [] => false
  | a :: as, b :: bs => if charLtB a b then true else if charLtB b a then false else listLtB as bs

/-- Executable lexicographic strict comparison of strings (Go `<` on
strings). -/
def strLtB (s t : String) : Bool := listLtB s.data t.data

/-- Executable lexicographic `≤` on strings. -/
def strLeB (s t : String) : Bool := !(listLtB t.data s.data)

/-- Insertion step for sorting migrations by version. -/
def insertByVersion (m : Migration) : List Migration → List Migration
  | [] => [m]
  | x :: xs => if strLeB m.version x.version then m :: x :: xs else x :: insertByVersion m xs

/-- Go `Registry.GetAllMigrations`: the registered migrations sorted
ascending by version (`sort.Slice` on the map's values; with versions
unique — they are the map keys — the sorted list is canonical). -/
def getAllMigrations (r : List (String × Migration)) : List Migration :=
  (r.map (fun p => p.2)).foldr insertByVersion []

/-- Go `versioner.MigrationRecord` (the `applied_at` timestamp column is
not read by any runner path considered here and is omitted). -/
structure LedgerRecord where
  version : String
  name : String
  deriving DecidableEq, Repr

/-- Insertion step for sorting ledger records by version. -/
def insertRecByVersion (m : LedgerRecord) : List LedgerRecord → List LedgerRecord
  | [] => [m]
  | x :: xs => if strLeB m.version x.version then m :: x :: xs else x :: insertRecByVersion m xs

/-- Go `Versioner.GetAppliedVersions`: the ledger's versions ordered
ascending (SQL `ORDER BY version ASC`; versions are the primary key). -/
def getAppliedVersions (led : List LedgerRecord) : List String :=
  (led.foldr insertRecByVersion []).map (fun r => r.version)

/-- An observable step of `Migrate` / `Rollback`: the apply effect, the
ledger insert, the reverse effect, the ledger delete. -/
inductive RunEvent
  | up (version : String)
  | record (version : String)
  | down (version : String)
  | removeRecord (version : String)
  deriving DecidableEq, Repr

/-- The loop of Go `Runner.Migrate` over the pending list: run `Up`; on
success append the ledger record and continue, on failure stop with the
error (the ledger write itself is in-memory here and always succeeds). -/
def migrateLoop : List Migration → List LedgerRecord → List RunEvent →
    List RunEvent × List LedgerRecord × Option String
  | [], led, evs => (evs, led, none)
  | m :: rest, led, evs =>
      if m.upOk then
        migrateLoop rest (led ++ [⟨m.version, m.name⟩]) (evs ++ [.up m.version, .record m.version])
      else (evs ++ [.up m.version], led, some ("failed to apply migration " ++ m.version))

/-- Go `Runner.Migrate`: pending = registered migrations (sorted by
version) minus the applied versions, then the loop. -/
def migrate (reg : List (String × Migration)) (led : List LedgerRecord) :
    List RunEvent × List LedgerRecord × Option String :=
  let applied := getAppliedVersions led
  let pending := (getAllMigrations reg).filter (fun m => !applied.contains m.version)
  migrateLoop pending led []

/-- The loop of Go `Runner.Rollback` over the target versions (most recent
first): look the migration up in the registry, run `Down`, then delete
the ledger record; abort on a missing registry entry or a failed
`Down`. -/
def rollbackLoop (reg : List (String × Migration)) :
    List String → List LedgerRecord → List RunEvent →
    List RunEvent × List LedgerRecord × Option String
  | [], led, evs => (evs, led, none)
  | v :: rest, led, evs =>
      match mapGet reg v with
      | none => (evs, led, some ("migration " ++ v ++ " not found in registry"))
      | some m =>
          if m.downOk then
            rollbackLoop reg rest (led.filter (fun r => r.version != v))
              (evs ++ [.down v, .removeRecord v])
          else (evs ++ [.down v], led, some ("failed to rollback migration " ++ v))

/-- Go `Runner.Rollback(n)`: error when nothing is applied; otherwise clamp
`n` to the applied count and roll back the last `n` applied versions in
descending order. -/
def rollback (reg : List (String × Migration)) (led : List LedgerRecord) (n : Nat) :
    List RunEvent × List LedgerRecord × Option String :=
  let applied := getAppliedVersions led
  if applied.isEmpty then ([], led, some "no migrations to rollback")
  else
    let n := if n > applied.length then applied.length else n
    rollbackLoop reg (applied.reverse.take n) led []

/-- Go `Runner.SimulateSchema`: fold every registered migration's simulate
effect, in ascending version order, onto a fresh empty state; the first
simulate error aborts with the offending version identified. -/
def simulateSchema (reg : List (String × Migration)) : Except String SchemaState :=
  (getAllMigrations reg).foldlM
    (fun s m =>
      match m.upSim s with
      | .ok s2 => .ok s2
      | .error e => .error ("failed to simulate migration " ++ m.version ++ ": " ++ e))
    emptySchema

/-- Decimal digit character. -/
def digitChar (n : Nat) : Char :=
  match n with
  | 0 => '0' | 1 => '1' | 2 => '2' | 3 => '3' | 4 => '4'
  | 5 => '5' | 6 => '6' | 7 => '7' | 8 => '8' | 9 => '9'
  | _ => '*'

/-- Decimal digits of a natural number, most significant first (0 prints
as "0"), as Go's `fmt` renders a non-negative integer. -/
def natDigits (n : Nat) : List Char :=
  if h : n < 10 then [digitChar n]
  else natDigits (n / 10) ++ [digitChar (n % 10)]
decreasing_by exact Nat.div_lt_self (by omega) (by omega)

/-- Go `fmt` verb `%0wd` on a non-negative value: the decimal digits,
left-padded with zeros to a minimum width of `w`. -/
def goPad (w n : Nat) : List Char :=
  List.replicate (w - (natDigits n).length) '0' ++ natDigits n

/-- The Go `time.Time` components read by `generateVersion`: the Unix
second (`now.Unix()`, the reset test) and the calendar components
formatted into the version string. -/
structure GoTime where
  unix : Int
  year : Nat
  month : Nat
  day : Nat
  hour : Nat
  minute : Nat
  second : Nat
  deriving DecidableEq, Repr

/-- The `YYYYMMDDHHMMSS` base of Go `generator.generateVersion`
(`fmt.Sprintf("%04d%02d%02d%02d%02d%02d", ...)`). -/
def baseVersion (t : GoTime) : String :=
  String.mk (goPad 4 t.year ++ goPad 2 t.month ++ goPad 2 t.day
    ++ goPad 2 t.hour ++ goPad 2 t.minute ++ goPad 2 t.second)

/-- The generator package's version-allocator state
(`versionCounter`, `lastSecond`; both zero at process start). -/
structure VersionState where
  versionCounter : Nat
  lastSecond : Int
  deriving DecidableEq, Repr

/-- The allocator state at process start. -/
def initialVersionState : VersionState := ⟨0, 0⟩

/-- Go `generator.generateVersion`: reset the counter when the Unix second
changed, increment it, and return the 14-digit base concatenated with the
`%04d`-formatted counter. -/
def generateVersion (now : GoTime) (s : VersionState) : String × VersionState :=
  let s1 := if now.unix != s.lastSecond then (⟨0, now.unix⟩ : VersionState) else s
  let c := s1.versionCounter + 1
  (baseVersion now ++ String.mk (goPad 4 c), ⟨c, s1.lastSecond⟩)

/-- `k` successive calls of `generateVersion`, all observing the same
clock reading (the wall clock stays within one second). -/
def generateVersions (t : GoTime) : Nat → VersionState → List String × VersionState
  | 0, s => ([], s)
  | k + 1, s =>
      let vs := generateVersion t s
      let rest := generateVersions t k vs.2
      (vs.1 :: rest.1, rest.2)

/-- Concrete target for the convergence claims: one managed `User` model
whose `Email` field declares a named index. -/
def userModelWithIndex : List ParsedModel :=
  [⟨"User", true,
    [⟨"ID", "uint", "primaryKey", "", []⟩,
     ⟨"Email", "string", "", "", [⟨"idx_email", false, 0⟩]⟩]⟩]

/-- Concrete simulated state for the ordering claim: table `t` with a
single column `b` of type `string`. -/
def orderingState : SchemaState :=
  (emptySchema.createTable "t").withTable "t" (fun t => t.addColumn "b" "string")

/-- Concrete target for the ordering claim: table `t` declaring `B`
(whose type changed) before the new field `A`. -/
def orderingModels : List ParsedModel :=
  [⟨"T", true, [⟨"B", "int", "", "", []⟩, ⟨"A", "string", "", "", []⟩]⟩]

/-- Concrete simulated state for the drop-index claim: table `user` with
an `email` column and one recorded index name `idx_email`. -/
def dropIndexState : SchemaState :=
  (emptySchema.createTable "user").withTable "user"
    (fun t => (t.addColumn "email" "string").addIndex "idx_email")

/-- Concrete target for the drop-index claim: `User` without any index. -/
def dropIndexModels : List ParsedModel :=
  [⟨"User", true, [⟨"Email", "string", "", "", []⟩]⟩]

/-- Concrete simulated state for the modify claims: `user` with one column
`age` of recorded type `int`. -/
def ageIntState : SchemaState :=
  (emptySchema.createTable "user").withTable "user" (fun t => t.addColumn "age" "int")

/-- The same state with the `age` column marked nullable instead: the two
states differ only in the prior nullable flag. -/
def ageIntNullState : SchemaState :=
  (emptySchema.createTable "user").withTable "user"
    (fun t => t.addColumnWithOptions "age" "int" true false false)

/-- Concrete target for the modify claims: `User` with `Age` of Go type
`uint`. -/
def ageUintModels : List ParsedModel :=
  [⟨"User", true, [⟨"Age", "uint", "", "", []⟩]⟩]

/-- Target whose `Age` column differs from both `ageIntState` and
`ageIntNullState` in type (forcing a modify_column in either case) and
whose nullable flag is false. -/
def ageUintNotNullModels : List ParsedModel :=
  [⟨"User", true, [⟨"Age", "uint", "not null", "", []⟩]⟩]

/-- Concrete table for the missing-column no-op witness. -/
def usersIdTable : Table :=
  (newTable "users").addColumn "id" "uint"

/-- Concrete state holding `usersIdTable`. -/
def usersIdState : SchemaState :=
  ⟨[("users", usersIdTable)]⟩

/-- Concrete successful migrations for the runner witnesses. -/
def migFirst : Migration :=
  ⟨"20250101000000", "first", fun s => .ok (s.createTable "a"), true, true⟩

/-- Second concrete migration (created after `migFirst`). -/
def migSecond : Migration :=
  ⟨"20250102000000", "second", fun s => .ok (s.createTable "b"), true, true⟩

/-- Ledger holding the two concrete migrations as applied. -/
def ledgerTwo : List LedgerRecord :=
  [⟨"20250101000000", "first"⟩, ⟨"20250102000000", "second"⟩]

/-- Registry with the two concrete migrations registered. -/
def registryTwo : List (String × Migration) :=
  registryOfList [migFirst, migSecond]

/-- Registry with the two concrete migrations registered in the opposite
order. -/
def registryTwoSwapped : List (String × Migration) :=
  registryOfList [migSecond, migFirst]

/-- A concrete clock reading for the version-allocator witness. -/
def witnessTime : GoTime :=
  ⟨1762440764, 2025, 11, 6, 14, 52, 44⟩

/-- Any binding of a key in a nodup-keyed association list carries the
value `mapGet` returns for that key. -/
theorem assoc_value_unique {α : Type} (m : List (String × α)) (k : String) (v : α)
    (hn : (m.map Prod.fst).Nodup) (hg : mapGet m k = some v) :
    ∀ p ∈ m, p.1 = k → p.2 = v := by
  induction m with
  | nil => intro p hp; cases hp
  | cons q m ih =>
      intro p hp hk
      simp only [mapGet, List.find?] at hg
      by_cases hq : q.1 == k
      · simp only [hq, Option.map_some] at hg
        rcases List.mem_cons.mp hp with rfl | hp
        · simpa using hg
        · exfalso
          have hqk : q.1 = k := by simpa using hq
          have hkm : k ∈ m.map Prod.fst := List.mem_map.mpr ⟨p, hp, hk⟩
          simp only [List.map_cons, List.nodup_cons] at hn
          exact hn.1 (hqk ▸ hkm)
      · simp only [hq] at hg
        rcases List.mem_cons.mp hp with rfl | hp
        · exact absurd (by simp [hk]) hq
        · exact ih (by simp only [List.map_cons, List.nodup_cons] at hn; exact hn.2)
            (by simpa [mapGet] using hg) p hp hk

/-- `withTable` is the identity when the operation fixes the table stored
at the target name. -/
theorem withTable_eq_self (s : SchemaState) (tn : String) (f : Table → Table)
    (h : ∀ p ∈ s.tables, p.1 = tn → f p.2 = p.2) :
    s.withTable tn f = s := by
  unfold SchemaState.withTable
  cases s with
  | mk tables =>
      simp only [SchemaState.mk.injEq]
      induction tables with
      | nil => rfl
      | cons q m ih =>
          simp only [List.map_cons]
          by_cases hq : q.1 == tn
          · have := h q (by simp) (by simpa using hq)
            simp only [hq, if_pos rfl]
            rw [ih (fun p hp hk => h p (by simp [hp]) hk)]
            cases q; simp_all
          · simp only [hq, if_neg]
            rw [ih (fun p hp hk => h p (by simp [hp]) hk)]
            simp [hq]

/-- C10: `ModifyColumn` and `RenameColumn` on a column name that is not
bound in the table are silent no-ops — at the table level the table is
returned unchanged (columns, constraints and indexes untouched), and at
the state level replaying such an operation through
`AlterTable(tn).ModifyColumn/RenameColumn` leaves the whole schema state
unchanged and raises no error (the builder operations are total). -/
theorem modify_rename_missing_column_noop
    (s : SchemaState) (tn : String) (t : Table) (cn nn ct : String) (nl pk uq : Bool)
    (hnodup : (s.tables.map Prod.fst).Nodup)
    (htable : mapGet s.tables tn = some t)
    (hcol : mapGet t.columns cn = none) :
    t.modifyColumn cn ct nl pk uq = t ∧ t.renameColumn cn nn = t ∧
    (s.alterTable tn).withTable tn (fun tb => tb.modifyColumn cn ct nl pk uq) = s ∧
    (s.alterTable tn).withTable tn (fun tb => tb.renameColumn cn nn) = s := by
  have hmod : t.modifyColumn cn ct nl pk uq = t := by
    unfold Table.modifyColumn
    rw [hcol]
  have hren : t.renameColumn cn nn = t := by
    unfold Table.renameColumn
    rw [hcol]
  have halter : s.alterTable tn = s := by
    unfold SchemaState.alterTable
    rw [htable]
    rfl
  refine ⟨hmod, hren, ?_, ?_⟩
  · rw [halter]
    refine withTable_eq_self s tn _ (fun p hp hk => ?_)
    have hpt : p.2 = t := assoc_value_unique s.tables tn t hnodup htable p hp hk
    rw [hpt]
    exact hmod
  · rw [halter]
    refine withTable_eq_self s tn _ (fun p hp hk => ?_)
    have hpt : p.2 = t := assoc_value_unique s.tables tn t hnodup htable p hp hk
    rw [hpt]
    exact hren

/-- Witness for C10 at a concrete state: table `users` with only an `id`
column; modifying or renaming the absent column `ghost` changes
nothing. -/
theorem modify_rename_missing_column_noop_witness :
    ((usersIdState.tables.map Prod.fst).Nodup ∧
      mapGet usersIdState.tables "users" = some usersIdTable ∧
      mapGet usersIdTable.columns "ghost" = none) ∧
    (usersIdTable.modifyColumn "ghost" "bigint" true false false = usersIdTable ∧
      usersIdTable.renameColumn "ghost" "spirit" = usersIdTable ∧
      (usersIdState.alterTable "users").withTable "users"
        (fun tb => tb.modifyColumn "ghost" "bigint" true false false) = usersIdState ∧
      (usersIdState.alterTable "users").withTable "users"
        (fun tb => tb.renameColumn "ghost" "spirit") = usersIdState) :=
  ⟨⟨by decide, by decide, by decide⟩,
    modify_rename_missing_column_noop usersIdState "users" usersIdTable "ghost" "spirit"
      "bigint" true false false (by decide) (by decide) (by decide)⟩

/-- C2 (divergence witness): at a concrete input `CompareSchema` emits the
`modify_column` for `b` before the `add_column` for `a` — column adds and
modifies are interleaved in the target's declared field order, and no
sorting pass exists — contradicting the claimed ordering (adds before
modifies, sub-sorted by name). -/
theorem compareSchema_ordering_violated :
    compareSchema orderingState orderingModels =
      [⟨"modify_column", "t", some ⟨"b", "bigint", "string", false, false, false⟩, none, none⟩,
       ⟨"add_column", "t", some ⟨"a", "string", "", false, false, false⟩, none, none⟩] := by
  rfl

/-- C3 (divergence witness): at a concrete input whose simulated table
carries the index name `idx_email`, the emitted `drop_index` diff carries
only that name — the uniqueness flag and field list are Go zero values,
because the simulated state retains index names only, so the original
IndexSpec is not reconstructible from the diff. -/
theorem compareSchema_drop_index_name_only :
    compareSchema dropIndexState dropIndexModels =
      [⟨"drop_index", "user", none, none, some ⟨"idx_email", false, []⟩⟩] := by
  rfl

/-- C5 (divergence witness): with the simulated column `age:int` and the
target Go type `uint`, `CompareSchema` returns one `modify_column` whose
new type is `bigint` (the SQL mapping of `uint`), not `uint` as the claim
and the repository's own diff tests state. -/
theorem compareSchema_age_uint_maps_to_bigint :
    compareSchema ageIntState ageUintModels =
      [⟨"modify_column", "user", some ⟨"age", "bigint", "int", false, false, false⟩, none, none⟩] := by
  rfl

/-- C1 (counterexample): starting from the empty log and a target with one
indexed table, diffing, materializing the diff list as one log entry (its
generated up-simulation) and appending it, then re-diffing, does not
yield an empty diff list: the `create_table` up-simulation never emits
the table's indexes, so an `add_index` diff survives to the second
round. -/
theorem convergence_not_one_step :
    compareSchema
      (applySimOps (upSimOps (compareSchema emptySchema userModelWithIndex)) emptySchema)
      userModelWithIndex ≠ [] := by
  decide

/-- C4 (counterexample): two simulated states that differ only in the
prior nullable flag of the `age` column produce identical diff lists, so
the emitted `modify_column` cannot carry the prior nullable/pk/unique
flags; only the prior type is recorded. -/
theorem modify_column_loses_prior_flags :
    ageIntState ≠ ageIntNullState ∧
    compareSchema ageIntState ageUintNotNullModels =
      compareSchema ageIntNullState ageUintNotNullModels := by
  exact ⟨by decide, by rfl⟩

/-- The executable character comparison decides the character order. -/
theorem charLtB_iff (a b : Char) : charLtB a b = true ↔ a < b := by
  simp only [charLtB, decide_eq_true_eq]
  exact Iff.rfl

/-- The executable list comparison decides the lexicographic order. -/
theorem listLtB_iff (l1 : List Char) :
    ∀ l2, listLtB l1 l2 = true ↔ List.Lex (· < ·) l1 l2 := by
  induction l1 with
  | nil =>
      intro l2
      cases l2 with
      | nil => exact ⟨fun h => (nomatch h), fun h => (nomatch h)⟩
      | cons b bs =>
          constructor
          · intro _
            exact List.Lex.nil
          · intro _
            rfl
  | cons a as ih =>
      intro l2
      cases l2 with
      | nil => exact ⟨fun h => (nomatch h), fun h => (nomatch h)⟩
      | cons b bs =>
          unfold listLtB
          cases hab : charLtB a b with
          | true =>
              simp only [if_true]
              exact ⟨fun _ => List.Lex.rel ((charLtB_iff a b).mp hab), fun _ => trivial⟩
          | false =>
              simp only [Bool.false_eq_true, if_false]
              have hab2 : ¬ a < b := by rw [← charLtB_iff]; simp [hab]
              cases hba : charLtB b a with
              | true =>
                  simp only [if_true]
                  constructor
                  · intro h; exact (nomatch h)
                  · intro h
                    cases h with
                    | cons h2 => exact absurd ((charLtB_iff _ _).mp hba) (lt_irrefl _)
                    | rel h2 => exact absurd h2 hab2
              | false =>
                  simp only [Bool.false_eq_true, if_false]
                  have hba2 : ¬ b < a := by rw [← charLtB_iff]; simp [hba]
                  have heq : a = b := le_antisymm (not_lt.mp hba2) (not_lt.mp hab2)
                  subst heq
                  constructor
                  · intro h; exact List.Lex.cons ((ih bs).mp h)
                  · intro h
                    cases h with
                    | cons h2 => exact (ih bs).mpr h2
                    | rel h2 => exact absurd h2 hab2

/-- The executable string comparison decides the lexicographic string
order. -/
theorem strLtB_iff (s t : String) : strLtB s t = true ↔ s < t := by
  rw [String.lt_iff_toList_lt, strLtB, listLtB_iff]
  exact Iff.rfl

/-- The executable string comparison decides `≤` on strings. -/
theorem strLeB_iff (s t : String) : strLeB s t = true ↔ s ≤ t := by
  have h : strLeB s t = !(strLtB t s) := rfl
  rw [h, Bool.not_eq_true', ← Bool.not_eq_true, strLtB_iff]
  exact not_lt

/-- The migrate loop applies the successful prefix (recording each entry
right after its apply effect), then stops at the first failing entry. -/
theorem migrateLoop_spec (pending : List Migration) :
    ∀ (led : List LedgerRecord) (evs : List RunEvent),
    migrateLoop pending led evs =
      (evs ++ (pending.takeWhile (fun m => m.upOk)).flatMap
          (fun m => [RunEvent.up m.version, RunEvent.record m.version]) ++
        ((pending.dropWhile (fun m => m.upOk)).head?.map
          (fun m => RunEvent.up m.version)).toList,
       led ++ (pending.takeWhile (fun m => m.upOk)).map
          (fun m => (⟨m.version, m.name⟩ : LedgerRecord)),
       (pending.dropWhile (fun m => m.upOk)).head?.map
          (fun m => "failed to apply migration " ++ m.version)) := by
  induction pending with
  | nil => intro led evs; simp [migrateLoop]
  | cons m rest ih =>
      intro led evs
      cases hup : m.upOk with
      | true =>
          simp only [migrateLoop, hup, if_true, ih, List.takeWhile_cons, List.dropWhile_cons,
            List.flatMap_cons, List.map_cons, List.append_assoc, List.cons_append,
            List.nil_append]
      | false =>
          simp [migrateLoop, hup, List.takeWhile_cons, List.dropWhile_cons]

/-- Insertion into a version-sorted migration list yields a permutation of
the cons. -/
theorem insertByVersion_perm (m : Migration) (l : List Migration) :
    (insertByVersion m l).Perm (m :: l) := by
  induction l with
  | nil => simp [insertByVersion]
  | cons x xs ih =>
      unfold insertByVersion
      cases h : strLeB m.version x.version with
      | true => simp
      | false =>
          simp only [Bool.false_eq_true, if_false]
          exact (ih.cons x).trans (List.Perm.swap m x xs)

/-- The version sort is a permutation of its input. -/
theorem sortMigrations_perm (l : List Migration) :
    (l.foldr insertByVersion []).Perm l := by
  induction l with
  | nil => exact List.Perm.refl []
  | cons x xs ih =>
      exact (insertByVersion_perm x (xs.foldr insertByVersion [])).trans (ih.cons x)

/-- Insertion preserves sortedness by version. -/
theorem insertByVersion_sorted (m : Migration) (l : List Migration)
    (h : List.Sorted (fun a b : Migration => a.version ≤ b.version) l) :
    List.Sorted (fun a b : Migration => a.version ≤ b.version) (insertByVersion m l) := by
  induction l with
  | nil => simp [insertByVersion]
  | cons x xs ih =>
      rcases List.sorted_cons.mp h with ⟨hx, hxs⟩
      unfold insertByVersion
      cases hle : strLeB m.version x.version with
      | true =>
          have hmx : m.version ≤ x.version := (strLeB_iff _ _).mp hle
          simp only [if_true]
          refine List.sorted_cons.mpr ⟨?_, h⟩
          intro b hb
          rcases List.mem_cons.mp hb with rfl | hb
          · exact hmx
          · exact le_trans hmx (hx b hb)
      | false =>
          have hxm : x.version ≤ m.version := by
            refine le_of_not_le (fun hc => ?_)
            rw [← strLeB_iff] at hc
            rw [hle] at hc
            cases hc
          simp only [Bool.false_eq_true, if_false]
          refine List.sorted_cons.mpr ⟨?_, ih hxs⟩
          intro b hb
          have hb2 := (insertByVersion_perm m xs).mem_iff.mp hb
          rcases List.mem_cons.mp hb2 with rfl | hb3
          · exact hxm
          · exact hx b hb3

/-- The version sort is sorted by version. -/
theorem sortMigrations_sorted (l : List Migration) :
    List.Sorted (fun a b : Migration => a.version ≤ b.version) (l.foldr insertByVersion []) := by
  induction l with
  | nil => simp
  | cons x xs ih => exact insertByVersion_sorted x (xs.foldr insertByVersion []) ih

/-- C6: `Runner.Migrate` — the computed pending list is the registered
migrations sorted ascending by version (a permutation of the registry's
contents) minus the versions already in the ledger; the loop invokes the
apply effect of each pending entry in that order, appends its ledger
record only after the effect succeeds, and aborts at the first failure,
leaving exactly the previously recorded entries recorded and no record
for the failed or subsequent entries. -/
theorem migrate_spec (reg : List (String × Migration)) (led : List LedgerRecord) :
    (getAllMigrations reg).Perm (reg.map (fun p => p.2)) ∧
    List.Sorted (fun a b : Migration => a.version ≤ b.version) (getAllMigrations reg) ∧
    migrate reg led =
      (let pending := (getAllMigrations reg).filter
          (fun m => !(getAppliedVersions led).contains m.version)
       ((pending.takeWhile (fun m => m.upOk)).flatMap
          (fun m => [RunEvent.up m.version, RunEvent.record m.version]) ++
          ((pending.dropWhile (fun m => m.upOk)).head?.map
            (fun m => RunEvent.up m.version)).toList,
        led ++ (pending.takeWhile (fun m => m.upOk)).map
          (fun m => (⟨m.version, m.name⟩ : LedgerRecord)),
        (pending.dropWhile (fun m => m.upOk)).head?.map
          (fun m => "failed to apply migration " ++ m.version))) := by
  refine ⟨sortMigrations_perm _, sortMigrations_sorted _, ?_⟩
  unfold migrate
  rw [migrateLoop_spec]
  simp

/-- The rollback loop, when every target version is registered with a
succeeding reverse effect, emits a down/remove pair per target in order
and deletes exactly the target records from the ledger. -/
theorem rollbackLoop_spec (reg : List (String × Migration)) (targets : List String) :
    ∀ (led : List LedgerRecord) (evs : List RunEvent),
    (∀ v ∈ targets, ∃ m, mapGet reg v = some m ∧ m.downOk = true) →
    rollbackLoop reg targets led evs =
      (evs ++ targets.flatMap (fun v => [RunEvent.down v, RunEvent.removeRecord v]),
       led.filter (fun r => !targets.contains r.version), none) := by
  induction targets with
  | nil => intro led evs _; simp [rollbackLoop]
  | cons v rest ih =>
      intro led evs hreg
      obtain ⟨m, hm, hd⟩ := hreg v (by simp)
      unfold rollbackLoop
      rw [hm]
      simp only [hd, if_true]
      rw [ih _ _ (fun w hw => hreg w (by simp [hw]))]
      simp only [Prod.mk.injEq]
      refine ⟨by simp, ?_, trivial⟩
      rw [List.filter_filter]
      refine List.filter_congr (fun r _ => ?_)
      simp only [List.contains_cons, Bool.not_or]
      rw [Bool.and_comm]
      rfl

/-- C7 (amended): with at least one applied migration, `Rollback(n)` takes
the last `n` applied versions (ledger version order), clamped to the
applied count — `List.take` saturates, so the clamp is captured by `take
n` for every `n`, including `n` greater than the applied count — and in
descending order invokes each entry's reverse effect exactly once
followed by the removal of its ledger record; no error is returned.  With
zero applied migrations the code returns an error instead of clamping
(see the counterexample). -/
theorem rollback_spec (reg : List (String × Migration)) (led : List LedgerRecord) (n : Nat)
    (hne : getAppliedVersions led ≠ [])
    (hreg : ∀ v ∈ (getAppliedVersions led).reverse.take n,
      ∃ m, mapGet reg v = some m ∧ m.downOk = true) :
    rollback reg led n =
      (((getAppliedVersions led).reverse.take n).flatMap
          (fun v => [RunEvent.down v, RunEvent.removeRecord v]),
       led.filter
          (fun r => !((getAppliedVersions led).reverse.take n).contains r.version),
       none) := by
  unfold rollback
  have hfalse : (getAppliedVersions led).isEmpty = false := by
    cases h : getAppliedVersions led
    · exact absurd h hne
    · rfl
  simp only [hfalse, Bool.false_eq_true, if_false]
  by_cases hcl : n > (getAppliedVersions led).length
  · simp only [hcl, if_true]
    have hlen : (getAppliedVersions led).reverse.length ≤ (getAppliedVersions led).length := by
      simp
    have h1 : (getAppliedVersions led).reverse.take (getAppliedVersions led).length
        = (getAppliedVersions led).reverse := List.take_of_length_le hlen
    have h2 : (getAppliedVersions led).reverse.take n = (getAppliedVersions led).reverse :=
      List.take_of_length_le (by simp; omega)
    rw [h1, h2]
    refine rollbackLoop_spec reg _ led [] (fun v hv => hreg v ?_)
    rw [h2]
    exact hv
  · simp only [hcl, if_false]
    exact rollbackLoop_spec reg _ led [] hreg

/-- C7 (counterexample): with zero applied migrations, `Rollback(1)`
returns the error `no migrations to rollback` rather than clamping `n` to
zero and succeeding. -/
theorem rollback_zero_applied_errors :
    rollback registryTwo [] 1 = ([], [], some "no migrations to rollback") := by
  rfl

/-- Witness for the amended rollback theorem: two applied migrations,
`Rollback(5)` clamps to two and rolls both back most-recent-first. -/
theorem rollback_spec_witness :
    (getAppliedVersions ledgerTwo ≠ [] ∧
      ∀ v ∈ (getAppliedVersions ledgerTwo).reverse.take 5,
        ∃ m, mapGet registryTwo v = some m ∧ m.downOk = true) ∧
    rollback registryTwo ledgerTwo 5 =
      ([RunEvent.down "20250102000000", RunEvent.removeRecord "20250102000000",
        RunEvent.down "20250101000000", RunEvent.removeRecord "20250101000000"],
       [], none) := by
  have h1 : getAppliedVersions ledgerTwo ≠ [] := by decide
  have h2 : ∀ v ∈ (getAppliedVersions ledgerTwo).reverse.take 5,
      ∃ m, mapGet registryTwo v = some m ∧ m.downOk = true := by
    have hl : (getAppliedVersions ledgerTwo).reverse.take 5
        = ["20250102000000", "20250101000000"] := by rfl
    rw [hl]
    intro v hv
    rcases List.mem_cons.mp hv with rfl | hv2
    · exact ⟨migSecond, rfl, rfl⟩
    rcases List.mem_cons.mp hv2 with rfl | hv3
    · exact ⟨migFirst, rfl, rfl⟩
    · cases hv3
  exact ⟨⟨h1, h2⟩, (rollback_spec registryTwo ledgerTwo 5 h1 h2).trans (by rfl)⟩

/-- Registering a migration whose version is not yet bound appends it. -/
theorem registerMigration_fresh (r : List (String × Migration)) (m : Migration)
    (h : mapGet r m.version = none) :
    registerMigration r m = r ++ [(m.version, m)] := by
  unfold registerMigration mapSet
  have hfind : r.find? (fun p => p.1 == m.version) = none := by
    unfold mapGet at h
    cases hf : r.find? (fun p => p.1 == m.version) with
    | none => rfl
    | some q => rw [hf] at h; cases h
  rw [hfind]
  rfl

/-- Registering a list of migrations with pairwise distinct versions binds
exactly those migrations, in registration order. -/
theorem registryOfList_eq (ms : List Migration)
    (h : (ms.map (fun m => m.version)).Nodup) :
    registryOfList ms = ms.map (fun m => (m.version, m)) := by
  suffices haux : ∀ acc : List (String × Migration),
      (∀ m ∈ ms, mapGet acc m.version = none) →
      (ms.map (fun m => m.version)).Nodup →
      ms.foldl registerMigration acc = acc ++ ms.map (fun m => (m.version, m)) by
    simpa [registryOfList] using haux [] (fun m _ => rfl) h
  clear h
  induction ms with
  | nil => intro acc _ _; simp
  | cons m rest ih =>
      intro acc hacc hnd
      simp only [List.foldl_cons, List.map_cons]
      rw [registerMigration_fresh acc m (hacc m (by simp))]
      rw [ih (acc ++ [(m.version, m)]) ?_ ?_]
      · rw [List.append_assoc]
        rfl
      · intro w hw
        unfold mapGet at hacc ⊢
        rw [List.find?_append]
        have h1 : acc.find? (fun p => p.1 == w.version) = none := by
          have := hacc w (by simp [hw])
          cases hf : acc.find? (fun p => p.1 == w.version) with
          | none => rfl
          | some q => rw [hf] at this; cases this
        rw [h1]
        have hne : w.version ≠ m.version := by
          simp only [List.map_cons, List.nodup_cons] at hnd
          intro hc
          exact hnd.1 (hc ▸ List.mem_map.mpr ⟨w, hw, rfl⟩)
        have hbeq : (m.version == w.version) = false := beq_eq_false_iff_ne.mpr (Ne.symm hne)
        simp [List.find?, hbeq]
      · simp only [List.map_cons, List.nodup_cons] at hnd
        exact hnd.2

/-- Two version-sorted migration lists that are permutations of each other
with pairwise distinct versions are equal. -/
theorem sorted_perm_nodup_eq (l1 l2 : List Migration)
    (hp : l1.Perm l2)
    (hn : (l1.map (fun m => m.version)).Nodup)
    (hs1 : List.Sorted (fun a b : Migration => a.version ≤ b.version) l1)
    (hs2 : List.Sorted (fun a b : Migration => a.version ≤ b.version) l2) :
    l1 = l2 := by
  haveI : IsAntisymm Migration (fun a b : Migration => a.version < b.version) :=
    ⟨fun a b h1 h2 => absurd (lt_trans h1 h2) (lt_irrefl _)⟩
  have hn2 : (l2.map (fun m => m.version)).Nodup := ((hp.map _).nodup_iff).mp hn
  have hne1 : List.Pairwise (fun a b : Migration => a.version ≠ b.version) l1 :=
    (List.pairwise_map).mp hn
  have hne2 : List.Pairwise (fun a b : Migration => a.version ≠ b.version) l2 :=
    (List.pairwise_map).mp hn2
  have hlt1 : List.Sorted (fun a b : Migration => a.version < b.version) l1 :=
    (hs1.and hne1).imp (fun h => lt_of_le_of_ne h.1 h.2)
  have hlt2 : List.Sorted (fun a b : Migration => a.version < b.version) l2 :=
    (hs2.and hne2).imp (fun h => lt_of_le_of_ne h.1 h.2)
  exact List.eq_of_perm_of_sorted hp hlt1 hlt2

/-- C9: replay is deterministic — `SimulateSchema` folds the registered
migrations onto a fresh empty state in ascending version order, so two
registries built by registering the same migrations (with their pairwise
distinct versions) in any two orders produce the same result. -/
theorem simulate_deterministic (L1 L2 : List Migration)
    (hp : L1.Perm L2) (hn : (L1.map (fun m => m.version)).Nodup) :
    simulateSchema (registryOfList L1) = simulateSchema (registryOfList L2) := by
  have hn2 : (L2.map (fun m => m.version)).Nodup := ((hp.map _).nodup_iff).mp hn
  have hv1 : (registryOfList L1).map (fun p => p.2) = L1 := by
    rw [registryOfList_eq L1 hn, List.map_map]
    exact List.map_id _
  have hv2 : (registryOfList L2).map (fun p => p.2) = L2 := by
    rw [registryOfList_eq L2 hn2, List.map_map]
    exact List.map_id _
  have hall : getAllMigrations (registryOfList L1) = getAllMigrations (registryOfList L2) := by
    unfold getAllMigrations
    rw [hv1, hv2]
    refine sorted_perm_nodup_eq _ _ ?_ ?_ (sortMigrations_sorted L1) (sortMigrations_sorted L2)
    · exact ((sortMigrations_perm L1).trans hp).trans (sortMigrations_perm L2).symm
    · exact (((sortMigrations_perm L1).map _).nodup_iff).mpr hn
  unfold simulateSchema
  rw [hall]

/-- Witness for C9: the two concrete migrations registered in either order
replay to the same schema state. -/
theorem simulate_deterministic_witness :
    ([migFirst, migSecond].Perm [migSecond, migFirst] ∧
      (([migFirst, migSecond]).map (fun m => m.version)).Nodup) ∧
    simulateSchema registryTwo = simulateSchema registryTwoSwapped := by
  have hp : [migFirst, migSecond].Perm [migSecond, migFirst] :=
    List.Perm.swap migSecond migFirst []
  have hn : (([migFirst, migSecond]).map (fun m => m.version)).Nodup := by decide
  exact ⟨⟨hp, hn⟩, simulate_deterministic [migFirst, migSecond] [migSecond, migFirst] hp hn⟩

/-- Digit characters are ordered as their digits. -/
theorem digitChar_lt (a b : Nat) (hab : a < b) (hb : b < 10) :
    digitChar a < digitChar b := by
  interval_cases b <;> interval_cases a <;> decide

/-- A number below ten prints as its single digit. -/
theorem natDigits_small (n : Nat) (h : n < 10) : natDigits n = [digitChar n] := by
  unfold natDigits
  rw [dif_pos h]

/-- A number of ten or more prints as its leading digits followed by its
last digit. -/
theorem natDigits_step (n : Nat) (h : ¬ n < 10) :
    natDigits n = natDigits (n / 10) ++ [digitChar (n % 10)] := by
  conv_lhs => unfold natDigits
  rw [dif_neg h]

/-- Bound on the printed length of a bounded number. -/
theorem natDigits_length_le (w : Nat) (hw : 1 ≤ w) :
    ∀ n, n < 10 ^ w → (natDigits n).length ≤ w := by
  induction w with
  | zero => omega
  | succ w ih =>
      intro n hn
      by_cases hsmall : n < 10
      · rw [natDigits_small n hsmall]
        simpa using hw
      · rw [natDigits_step n hsmall]
        rcases Nat.eq_zero_or_pos w with rfl | hwpos
        · simp at hn
          omega
        · have hdiv : n / 10 < 10 ^ w := by
            rw [pow_succ] at hn
            exact Nat.div_lt_of_lt_mul (by omega)
          have := ih hwpos (n / 10) hdiv
          simp only [List.length_append, List.length_cons, List.length_nil]
          omega

/-- A bounded number zero-pads to exactly the target width. -/
theorem goPad_length (w n : Nat) (hw : 1 ≤ w) (hn : n < 10 ^ w) :
    (goPad w n).length = w := by
  unfold goPad
  have h := natDigits_length_le w hw n hn
  simp only [List.length_append, List.length_replicate]
  omega

/-- Splitting off the last digit of a zero-padded rendering. -/
theorem goPad_step (w n : Nat) (hw : 1 ≤ w) :
    goPad (w + 1) n = goPad w (n / 10) ++ [digitChar (n % 10)] := by
  by_cases hsmall : n < 10
  · have hdiv : n / 10 = 0 := Nat.div_eq_of_lt hsmall
    have hmod : n % 10 = n := Nat.mod_eq_of_lt hsmall
    rw [hdiv, hmod]
    unfold goPad
    rw [natDigits_small n hsmall, natDigits_small 0 (by omega)]
    have h0 : digitChar 0 = '0' := rfl
    rw [h0]
    simp only [List.length_cons, List.length_nil]
    have hrep : List.replicate (w + 1 - 1) '0' = List.replicate (w - 1) '0' ++ ['0'] := by
      have hw2 : w + 1 - 1 = (w - 1) + 1 := by omega
      rw [hw2, ← List.replicate_succ']
    rw [hrep]
  · unfold goPad
    rw [natDigits_step n hsmall]
    simp only [List.length_append, List.length_cons, List.length_nil]
    have harith : w + 1 - ((natDigits (n / 10)).length + (0 + 1)) = w - (natDigits (n / 10)).length := by
      omega
    rw [harith, List.append_assoc]

/-- Lexicographic comparison extends across equal-length prefixes. -/
theorem lex_append_of_length_eq (r : Char → Char → Prop) :
    ∀ (l1 l2 t1 t2 : List Char), l1.length = l2.length →
      List.Lex r l1 l2 → List.Lex r (l1 ++ t1) (l2 ++ t2) := by
  intro l1
  induction l1 with
  | nil =>
      intro l2 t1 t2 hlen h
      cases l2 with
      | nil => exact (nomatch h)
      | cons b bs => cases hlen
  | cons a as ih =>
      intro l2 t1 t2 hlen h
      cases l2 with
      | nil => cases hlen
      | cons b bs =>
          cases h with
          | rel h2 => exact List.Lex.rel h2
          | cons h2 =>
              exact List.Lex.cons (ih bs t1 t2 (by simpa using hlen) h2)

/-- Lexicographic comparison under a shared prefix. -/
theorem lex_append_left (r : Char → Char → Prop) (t1 t2 : List Char) (h : List.Lex r t1 t2) :
    ∀ p : List Char, List.Lex r (p ++ t1) (p ++ t2) := by
  intro p
  induction p with
  | nil => exact h
  | cons c cs ih => exact List.Lex.cons ih

/-- Zero-padded renderings of bounded numbers compare lexicographically as
the numbers themselves. -/
theorem goPad_lex (w : Nat) : ∀ a b : Nat, a < b → b < 10 ^ w →
    List.Lex (· < ·) (goPad w a) (goPad w b) := by
  induction w with
  | zero => intro a b hab hb; omega
  | succ w ih =>
      intro a b hab hb
      rcases Nat.eq_zero_or_pos w with rfl | hwpos
      · have hb10 : b < 10 := by simpa using hb
        unfold goPad
        rw [natDigits_small a (by omega), natDigits_small b hb10]
        simp only [List.length_cons, List.length_nil, Nat.sub_self, List.replicate,
          List.nil_append]
        exact List.Lex.rel (digitChar_lt a b hab hb10)
      · rw [goPad_step w a hwpos, goPad_step w b hwpos]
        have hbdiv : b / 10 < 10 ^ w := by
          rw [pow_succ] at hb
          exact Nat.div_lt_of_lt_mul (by omega)
        have hadiv : a / 10 ≤ b / 10 := Nat.div_le_div_right (le_of_lt hab)
        rcases lt_or_eq_of_le hadiv with hlt | heq
        · refine lex_append_of_length_eq _ _ _ _ _ ?_ (ih (a / 10) (b / 10) hlt hbdiv)
          rw [goPad_length w (a / 10) hwpos (lt_of_le_of_lt hadiv hbdiv),
            goPad_length w (b / 10) hwpos hbdiv]
        · rw [heq]
          refine lex_append_left _ _ _ ?_ _
          have hmod : a % 10 < b % 10 := by
            have ha10 : a = 10 * (a / 10) + a % 10 := (Nat.div_add_mod a 10).symm
            have hb10 : b = 10 * (b / 10) + b % 10 := (Nat.div_add_mod b 10).symm
            omega
          exact List.Lex.rel (digitChar_lt _ _ hmod (Nat.mod_lt b (by omega)))

/-- Within one second (the stored second matches the clock), successive
calls keep incrementing the counter: starting from counter `c`, the `k`
returned versions carry the suffixes `c+1 .. c+k`. -/
theorem generateVersions_same_second (t : GoTime) :
    ∀ (k c : Nat), (generateVersions t k ⟨c, t.unix⟩).1 =
      (List.range k).map (fun i => baseVersion t ++ String.mk (goPad 4 (c + i + 1))) := by
  intro k
  induction k with
  | zero => intro c; rfl
  | succ k ih =>
      intro c
      have hbne : (t.unix != t.unix) = false := by simp
      simp only [generateVersions, generateVersion, hbne, Bool.false_eq_true, if_false]
      rw [ih (c + 1)]
      rw [List.range_succ_eq_map]
      simp only [List.map_cons, List.map_map]
      refine congrArg₂ _ rfl ?_
      refine List.map_congr_left (fun i _ => ?_)
      have harith : c + 1 + i + 1 = c + Nat.succ i + 1 := by omega
      simp only [Function.comp_apply]
      rw [harith]

/-- C8: `k` calls of `generateVersion` within one wall-clock second (all
observing the same clock reading, whose Unix second differs from the
allocator's stored second, so the counter starts fresh), with `k` at most
9999, return the 14-digit `YYYYMMDDHHMMSS` base concatenated with the
zero-padded 4-digit suffixes `0001` through `000k` in order, and the `k`
strings are strictly increasing lexicographically. -/
theorem generateVersion_sequence (t : GoTime) (s0 : VersionState) (k : Nat)
    (hfresh : t.unix ≠ s0.lastSecond) (hk : k ≤ 9999)
    (hy : t.year < 10000) (hmo : t.month < 100) (hd : t.day < 100)
    (hh : t.hour < 100) (hmi : t.minute < 100) (hs : t.second < 100) :
    (generateVersions t k s0).1 =
      (List.range k).map (fun i => baseVersion t ++ String.mk (goPad 4 (i + 1))) ∧
    (baseVersion t).length = 14 ∧
    List.Chain' (· < ·) (generateVersions t k s0).1 := by
  have hp4 : (10 : Nat) ^ 4 = 10000 := by norm_num
  have hp2 : (10 : Nat) ^ 2 = 100 := by norm_num
  have hlist : (generateVersions t k s0).1 =
      (List.range k).map (fun i => baseVersion t ++ String.mk (goPad 4 (i + 1))) := by
    cases k with
    | zero => rfl
    | succ k =>
        have hbne : (t.unix != s0.lastSecond) = true := bne_iff_ne.mpr hfresh
        simp only [generateVersions, generateVersion, hbne, if_true]
        rw [generateVersions_same_second t k 1]
        rw [List.range_succ_eq_map]
        simp only [List.map_cons, List.map_map]
        refine congrArg₂ _ rfl ?_
        refine List.map_congr_left (fun i _ => ?_)
        have harith : 1 + i + 1 = Nat.succ i + 1 := by omega
        simp only [Function.comp_apply]
        rw [harith]
  refine ⟨hlist, ?_, ?_⟩
  · show (goPad 4 t.year ++ goPad 2 t.month ++ goPad 2 t.day ++ goPad 2 t.hour
      ++ goPad 2 t.minute ++ goPad 2 t.second).length = 14
    simp only [List.length_append]
    rw [goPad_length 4 t.year (by omega) (by omega),
      goPad_length 2 t.month (by omega) (by omega),
      goPad_length 2 t.day (by omega) (by omega),
      goPad_length 2 t.hour (by omega) (by omega),
      goPad_length 2 t.minute (by omega) (by omega),
      goPad_length 2 t.second (by omega) (by omega)]
  · rw [hlist]
    apply List.Pairwise.chain'
    rw [List.pairwise_map]
    refine (List.pairwise_lt_range k).imp_of_mem ?_
    intro a b _ hb hab
    have hbk : b < k := List.mem_range.mp hb
    rw [String.lt_iff_toList_lt]
    show List.Lex (· < ·)
      ((baseVersion t ++ String.mk (goPad 4 (a + 1))).data)
      ((baseVersion t ++ String.mk (goPad 4 (b + 1))).data)
    rw [String.data_append, String.data_append]
    exact lex_append_left _ _ _
      (goPad_lex 4 (a + 1) (b + 1) (by omega) (by omega)) _

/-- Witness for C8: three calls at a fixed clock reading starting from the
process-start allocator state. -/
theorem generateVersion_sequence_witness :
    (witnessTime.unix ≠ initialVersionState.lastSecond ∧ (3 : Nat) ≤ 9999 ∧
      witnessTime.year < 10000 ∧ witnessTime.month < 100 ∧ witnessTime.day < 100 ∧
      witnessTime.hour < 100 ∧ witnessTime.minute < 100 ∧ witnessTime.second < 100) ∧
    ((generateVersions witnessTime 3 initialVersionState).1 =
      (List.range 3).map (fun i => baseVersion witnessTime ++ String.mk (goPad 4 (i + 1))) ∧
      (baseVersion witnessTime).length = 14 ∧
      List.Chain' (· < ·) (generateVersions witnessTime 3 initialVersionState).1) := by
  refine ⟨⟨by decide, by decide, by decide, by decide, by decide, by decide, by decide,
    by decide⟩, ?_⟩
  exact generateVersion_sequence witnessTime initialVersionState 3 (by decide) (by decide)
    (by decide) (by decide) (by decide) (by decide) (by decide) (by decide)

/-- A key-preserving transformation commutes with keyed search. -/
theorem find?_map_keyfix {α : Type} (f : String × α → String × α) (x : String)
    (hf : ∀ p : String × α, ((f p).1 == x) = (p.1 == x)) :
    ∀ m : List (String × α),
      (m.map f).find? (fun p => p.1 == x) = Option.map f (m.find? (fun p => p.1 == x)) := by
  intro m
  induction m with
  | nil => rfl
  | cons q m ih =>
      simp only [List.map_cons, List.find?]
      rw [hf q]
      cases hq : q.1 == x with
      | true => rfl
      | false => exact ih

/-- The binding found for a key names that key. -/
theorem mapGet_mem {α : Type} (m : List (String × α)) (k : String) (v : α)
    (h : mapGet m k = some v) : (k, v) ∈ m := by
  unfold mapGet at h
  cases hf : m.find? (fun p => p.1 == k) with
  | none => rw [hf] at h; cases h
  | some q =>
      rw [hf] at h
      have hq : q ∈ m := List.mem_of_find?_eq_some (p := fun u : String × α => u.1 == k) hf
      have hkey := List.find?_some (p := fun u : String × α => u.1 == k) hf
      have hk : q.1 = k := by simpa using hkey
      have hv : q.2 = v := by simpa using h
      have : q = (k, v) := Prod.ext hk hv
      exact this ▸ hq

/-- A key maps to the value just assigned to it. -/
theorem mapGet_mapSet_self {α : Type} (m : List (String × α)) (k : String) (v : α) :
    mapGet (mapSet m k v) k = some v := by
  unfold mapSet
  cases hf : (m.find? (fun p => p.1 == k)).isSome with
  | true =>
      simp only [if_true]
      unfold mapGet
      rw [find?_map_keyfix (fun p => if p.1 == k then (k, v) else p) k ?hf m]
      case hf =>
        intro p
        cases hp : p.1 == k with
        | true => simp [hp]
        | false => simp [hp]
      obtain ⟨q, hq⟩ := Option.isSome_iff_exists.mp hf
      rw [hq]
      have hkey := List.find?_some (p := fun u : String × α => u.1 == k) hq
      have hkeyt : q.1 = k := by simpa using hkey
      simp [hkeyt]
  | false =>
      simp only [Bool.false_eq_true, if_false]
      unfold mapGet
      rw [List.find?_append]
      have hn : m.find? (fun p => p.1 == k) = none := Option.not_isSome_iff_eq_none.mp (by simp [hf])
      rw [hn]
      show Option.map (fun p => p.2) (List.find? (fun p => p.1 == k) [(k, v)]) = some v
      simp [List.find?]

/-- Assignment to one key leaves the other keys' values unchanged. -/
theorem mapGet_mapSet_other {α : Type} (m : List (String × α)) (k : String) (v : α)
    (x : String) (hx : x ≠ k) :
    mapGet (mapSet m k v) x = mapGet m x := by
  unfold mapSet
  cases hf : (m.find? (fun p => p.1 == k)).isSome with
  | true =>
      simp only [if_true]
      unfold mapGet
      rw [find?_map_keyfix (fun p => if p.1 == k then (k, v) else p) x ?hf m]
      case hf =>
        intro p
        cases hp : p.1 == k with
        | true =>
            have : p.1 = k := by simpa using hp
            simp [hp, this, Ne.symm hx]
        | false => simp [hp]
      cases hq : m.find? (fun p => p.1 == x) with
      | none => rfl
      | some q =>
          have hkey := List.find?_some (p := fun u : String × α => u.1 == x) hq
          have hqx : q.1 = x := by simpa using hkey
          have hqk : q.1 ≠ k := hqx ▸ hx
          simp [hqk]
  | false =>
      simp only [Bool.false_eq_true, if_false]
      unfold mapGet
      rw [List.find?_append]
      have hsing : List.find? (fun p => p.1 == x) [(k, v)] = none := by
        simp [List.find?, beq_eq_false_iff_ne.mpr (Ne.symm hx)]
      rw [hsing]
      cases hq : m.find? (fun p => p.1 == x) <;> rfl

/-- A deleted key maps to nothing. -/
theorem mapGet_mapDel_self {α : Type} (m : List (String × α)) (k : String) :
    mapGet (mapDel m k) k = none := by
  unfold mapGet mapDel
  rw [List.find?_eq_none.mpr]
  · rfl
  · intro p hp
    have := List.of_mem_filter hp
    simp only [bne_iff_ne, ne_eq] at this
    simp [this]

/-- Deletion of one key leaves the other keys' values unchanged. -/
theorem mapGet_mapDel_other {α : Type} (m : List (String × α)) (k : String)
    (x : String) (hx : x ≠ k) :
    mapGet (mapDel m k) x = mapGet m x := by
  unfold mapGet mapDel
  induction m with
  | nil => rfl
  | cons q m ih =>
      simp only [List.filter]
      cases hq : q.1 != k with
      | true =>
          simp only [List.find?]
          cases hqx : q.1 == x with
          | true => rfl
          | false => exact ih
      | false =>
          have hqk : q.1 = k := by simpa using hq
          have hqx : (q.1 == x) = false := beq_eq_false_iff_ne.mpr (hqk ▸ Ne.symm hx)
          simp only [List.find?, hqx]
          exact ih

/-- With unique keys, every binding is the one its key retrieves. -/
theorem nodup_mem_mapGet {α : Type} (m : List (String × α))
    (hn : (m.map Prod.fst).Nodup) (p : String × α) (hp : p ∈ m) :
    mapGet m p.1 = some p.2 := by
  induction m with
  | nil => cases hp
  | cons q m ih =>
      simp only [List.map_cons, List.nodup_cons] at hn
      rcases List.mem_cons.mp hp with rfl | hp2
      · unfold mapGet
        simp [List.find?]
      · have hne : p.1 ≠ q.1 := by
          intro hc
          exact hn.1 (hc ▸ List.mem_map.mpr ⟨p, hp2, rfl⟩)
        unfold mapGet
        simp only [List.find?, beq_eq_false_iff_ne.mpr (Ne.symm hne)]
        exact ih hn.2 hp2

/-- Assignment preserves the key list when the key is present, and appends
the key otherwise. -/
theorem mapSet_keys {α : Type} (m : List (String × α)) (k : String) (v : α) :
    (mapSet m k v).map Prod.fst = m.map Prod.fst ∨
    (mapSet m k v).map Prod.fst = m.map Prod.fst ++ [k] := by
  unfold mapSet
  cases hf : (m.find? (fun p => p.1 == k)).isSome with
  | true =>
      left
      simp only [if_true, List.map_map]
      refine List.map_congr_left (fun p _ => ?_)
      simp only [Function.comp_apply]
      cases hp : p.1 == k with
      | true =>
          have : p.1 = k := by simpa using hp
          simp [hp, this]
      | false => simp [hp]
  | false =>
      right
      simp

/-- Assignment preserves key uniqueness. -/
theorem mapSet_keys_nodup {α : Type} (m : List (String × α)) (k : String) (v : α)
    (hn : (m.map Prod.fst).Nodup) : ((mapSet m k v).map Prod.fst).Nodup := by
  rcases mapSet_keys m k v with h | h
  · rw [h]; exact hn
  · rw [h]
    unfold mapSet at h
    cases hf : (m.find? (fun p => p.1 == k)).isSome with
    | true =>
        rw [hf] at h
        simp only [if_true, List.map_map] at h
        exfalso
        have := congrArg List.length h
        simp at this
    | false =>
        have hno : k ∉ m.map Prod.fst := by
          intro hc
          obtain ⟨p, hp, hpk⟩ := List.mem_map.mp hc
          have : m.find? (fun u => u.1 == k) ≠ none := by
            intro hcn
            have := List.find?_eq_none.mp hcn p hp
            simp [hpk] at this
          rw [Option.ne_none_iff_isSome] at this
          rw [hf] at this
          cases this
        simp [List.nodup_append, hn, hno]

/-- Deletion preserves key uniqueness. -/
theorem mapDel_keys_nodup {α : Type} (m : List (String × α)) (k : String)
    (hn : (m.map Prod.fst).Nodup) : ((mapDel m k).map Prod.fst).Nodup := by
  exact ((List.filter_sublist m).map Prod.fst).nodup hn

/-- A member of a map after assignment is an old binding or the new one. -/
theorem mem_mapSet {α : Type} (m : List (String × α)) (k : String) (v : α)
    (p : String × α) (hp : p ∈ mapSet m k v) : p ∈ m ∨ p = (k, v) := by
  unfold mapSet at hp
  cases hf : (m.find? (fun u => u.1 == k)).isSome with
  | true =>
      rw [hf] at hp
      simp only [if_true] at hp
      obtain ⟨q, hq, hfq⟩ := List.mem_map.mp hp
      cases hqk : q.1 == k with
      | true => right; rw [← hfq]; simp [hqk]
      | false => left; rw [← hfq]; simpa [hqk] using hq
  | false =>
      rw [hf] at hp
      simp only [Bool.false_eq_true, if_false] at hp
      rcases List.mem_append.mp hp with h | h
      · exact Or.inl h
      · right; simpa using h

/-- A member of a map after deletion is an old binding with another key. -/
theorem mem_mapDel {α : Type} (m : List (String × α)) (k : String)
    (p : String × α) (hp : p ∈ mapDel m k) : p ∈ m ∧ p.1 ≠ k := by
  unfold mapDel at hp
  refine ⟨List.mem_of_mem_filter hp, ?_⟩
  have := List.of_mem_filter hp
  simpa using this

/-- Applying a table operation at one name preserves the key list. -/
theorem withTable_keys (s : SchemaState) (tn : String) (f : Table → Table) :
    (s.withTable tn f).tables.map Prod.fst = s.tables.map Prod.fst := by
  unfold SchemaState.withTable
  simp only [List.map_map]
  refine List.map_congr_left (fun p _ => ?_)
  simp only [Function.comp_apply]
  cases hp : p.1 == tn with
  | true =>
      have : p.1 = tn := by simpa using hp
      simp [hp, this]
  | false => simp [hp]

/-- The targeted binding after `withTable` is the transformed table. -/
theorem mapGet_withTable_self (s : SchemaState) (tn : String) (f : Table → Table) :
    mapGet (s.withTable tn f).tables tn = (mapGet s.tables tn).map f := by
  unfold SchemaState.withTable mapGet
  rw [find?_map_keyfix (fun p => if p.1 == tn then (p.1, f p.2) else p) tn ?hf s.tables]
  case hf =>
    intro p
    cases hp : p.1 == tn with
    | true => simp [hp]
    | false => simp [hp]
  cases hq : s.tables.find? (fun p => p.1 == tn) with
  | none => rfl
  | some q =>
      have hkey := List.find?_some (p := fun u : String × Table => u.1 == tn) hq
      have hk : q.1 = tn := by simpa using hkey
      simp [hk]

/-- `withTable` leaves the bindings of other names unchanged. -/
theorem mapGet_withTable_other (s : SchemaState) (tn : String) (f : Table → Table)
    (x : String) (hx : x ≠ tn) :
    mapGet (s.withTable tn f).tables x = mapGet s.tables x := by
  unfold SchemaState.withTable mapGet
  rw [find?_map_keyfix (fun p => if p.1 == tn then (p.1, f p.2) else p) x ?hf s.tables]
  case hf =>
    intro p
    cases hp : p.1 == tn with
    | true => simp [hp]
    | false => simp [hp]
  cases hq : s.tables.find? (fun p => p.1 == x) with
  | none => rfl
  | some q =>
      have hkey := List.find?_some (p := fun u : String × Table => u.1 == x) hq
      have hk : q.1 = x := by simpa using hkey
      have hne : q.1 ≠ tn := hk ▸ hx
      simp [hne]

/-- `AlterTable` binds the existing table or a fresh empty one. -/
theorem mapGet_alterTable_self (s : SchemaState) (tn : String) :
    mapGet (s.alterTable tn).tables tn = some ((mapGet s.tables tn).getD (newTable tn)) := by
  unfold SchemaState.alterTable
  cases hq : mapGet s.tables tn with
  | some t => simp [hq]
  | none =>
      simp only [hq, Option.isSome_none, Bool.false_eq_true, if_false]
      simpa using mapGet_mapSet_self s.tables tn (newTable tn)

/-- `AlterTable` leaves other bindings unchanged. -/
theorem mapGet_alterTable_other (s : SchemaState) (tn : String) (x : String) (hx : x ≠ tn) :
    mapGet (s.alterTable tn).tables x = mapGet s.tables x := by
  unfold SchemaState.alterTable
  cases hq : (mapGet s.tables tn).isSome with
  | true => simp
  | false =>
      simp only [Bool.false_eq_true, if_false]
      exact mapGet_mapSet_other s.tables tn (newTable tn) x hx

/-- A builder call rewrites the binding of its own target exactly as the
table-level semantics says. -/
theorem mapGet_applySimOp_self (s : SchemaState) (op : SimOp) :
    mapGet (applySimOp s op).tables op.target = applyTableOp (mapGet s.tables op.target) op := by
  cases op with
  | createTableChain tn cols =>
      show mapGet ((((s.createTable tn)).withTable tn _).tables) tn = _
      rw [mapGet_withTable_self]
      unfold SchemaState.createTable
      rw [show (⟨mapSet s.tables tn (newTable tn)⟩ : SchemaState).tables
          = mapSet s.tables tn (newTable tn) from rfl]
      rw [mapGet_mapSet_self]
      rfl
  | dropTable tn =>
      show mapGet (s.dropTable tn).tables tn = none
      exact mapGet_mapDel_self s.tables tn
  | addColumnWithOptions tn cn ct nl pk uq =>
      show mapGet (((s.alterTable tn)).withTable tn _).tables tn = _
      rw [mapGet_withTable_self, mapGet_alterTable_self]
      rfl
  | dropColumn tn cn =>
      show mapGet (((s.alterTable tn)).withTable tn _).tables tn = _
      rw [mapGet_withTable_self, mapGet_alterTable_self]
      rfl
  | modifyColumn tn cn ct nl pk uq =>
      show mapGet (((s.alterTable tn)).withTable tn _).tables tn = _
      rw [mapGet_withTable_self, mapGet_alterTable_self]
      rfl
  | addIndex tn n =>
      show mapGet (((s.alterTable tn)).withTable tn _).tables tn = _
      rw [mapGet_withTable_self, mapGet_alterTable_self]
      rfl
  | dropIndex tn n =>
      show mapGet (((s.alterTable tn)).withTable tn _).tables tn = _
      rw [mapGet_withTable_self, mapGet_alterTable_self]
      rfl

/-- A builder call leaves the bindings of all other tables unchanged. -/
theorem mapGet_applySimOp_other (s : SchemaState) (op : SimOp) (x : String)
    (hx : x ≠ op.target) :
    mapGet (applySimOp s op).tables x = mapGet s.tables x := by
  cases op with
  | createTableChain tn cols =>
      simp only [SimOp.target] at hx
      show mapGet ((((s.createTable tn)).withTable tn _).tables) x = _
      rw [mapGet_withTable_other _ _ _ x hx]
      exact mapGet_mapSet_other s.tables tn (newTable tn) x hx
  | dropTable tn =>
      simp only [SimOp.target] at hx
      exact mapGet_mapDel_other s.tables tn x hx
  | addColumnWithOptions tn cn ct nl pk uq =>
      simp only [SimOp.target] at hx
      show mapGet (((s.alterTable tn)).withTable tn _).tables x = _
      rw [mapGet_withTable_other _ _ _ x hx]
      exact mapGet_alterTable_other s tn x hx
  | dropColumn tn cn =>
      simp only [SimOp.target] at hx
      show mapGet (((s.alterTable tn)).withTable tn _).tables x = _
      rw [mapGet_withTable_other _ _ _ x hx]
      exact mapGet_alterTable_other s tn x hx
  | modifyColumn tn cn ct nl pk uq =>
      simp only [SimOp.target] at hx
      show mapGet (((s.alterTable tn)).withTable tn _).tables x = _
      rw [mapGet_withTable_other _ _ _ x hx]
      exact mapGet_alterTable_other s tn x hx
  | addIndex tn n =>
      simp only [SimOp.target] at hx
      show mapGet (((s.alterTable tn)).withTable tn _).tables x = _
      rw [mapGet_withTable_other _ _ _ x hx]
      exact mapGet_alterTable_other s tn x hx
  | dropIndex tn n =>
      simp only [SimOp.target] at hx
      show mapGet (((s.alterTable tn)).withTable tn _).tables x = _
      rw [mapGet_withTable_other _ _ _ x hx]
      exact mapGet_alterTable_other s tn x hx

/-- The binding of a table after a run of builder calls is computed by the
table-level semantics of exactly those calls that target it. -/
theorem applySimOps_binding (ops : List SimOp) :
    ∀ (s : SchemaState) (x : String),
      mapGet (applySimOps ops s).tables x =
        applyTableOps (ops.filter (fun op => SimOp.target op == x)) (mapGet s.tables x) := by
  induction ops with
  | nil => intro s x; rfl
  | cons op rest ih =>
      intro s x
      show mapGet (applySimOps rest (applySimOp s op)).tables x = _
      rw [ih (applySimOp s op) x]
      cases hx : SimOp.target op == x with
      | true =>
          have hx2 : SimOp.target op = x := by simpa using hx
          have hfl : (op :: rest).filter (fun op => SimOp.target op == x)
              = op :: rest.filter (fun op => SimOp.target op == x) := by
            simp [List.filter, hx]
          rw [hfl]
          show _ = applyTableOps (rest.filter _) (applyTableOp (mapGet s.tables x) op)
          rw [← hx2, mapGet_applySimOp_self s op]
      | false =>
          have hx2 : SimOp.target op ≠ x := by simpa using hx
          have hfl : (op :: rest).filter (fun op => SimOp.target op == x)
              = rest.filter (fun op => SimOp.target op == x) := by
            simp [List.filter, hx]
          rw [hfl, mapGet_applySimOp_other s op x (Ne.symm hx2)]

/-- Deduplication preserves membership. -/
theorem mem_dedupNames (n : String) : ∀ l : List String, n ∈ dedupNames l ↔ n ∈ l := by
  intro l
  induction l with
  | nil => simp [dedupNames]
  | cons x xs ih =>
      simp only [dedupNames, List.mem_cons, List.mem_filter]
      constructor
      · rintro (rfl | ⟨h1, _⟩)
        · exact Or.inl rfl
        · exact Or.inr (ih.mp h1)
      · rintro (rfl | h)
        · exact Or.inl rfl
        · by_cases hx : n = x
          · exact Or.inl hx
          · exact Or.inr ⟨ih.mpr h, by simpa using hx⟩

/-- Every builder call preserves uniqueness of the table keys. -/
theorem applySimOp_keys_nodup (s : SchemaState) (op : SimOp)
    (hn : (s.tables.map Prod.fst).Nodup) :
    ((applySimOp s op).tables.map Prod.fst).Nodup := by
  have halter : ∀ tn, (((s.alterTable tn).tables.map Prod.fst)).Nodup := by
    intro tn
    unfold SchemaState.alterTable
    cases hq : (mapGet s.tables tn).isSome with
    | true => simpa using hn
    | false =>
        simp only [Bool.false_eq_true, if_false]
        exact mapSet_keys_nodup s.tables tn (newTable tn) hn
  have hwith : ∀ (s2 : SchemaState) (tn : String) (f : Table → Table),
      ((s2.tables.map Prod.fst)).Nodup → (((s2.withTable tn f).tables.map Prod.fst)).Nodup := by
    intro s2 tn f h
    rw [withTable_keys]
    exact h
  cases op with
  | createTableChain tn cols =>
      exact hwith _ tn _ (mapSet_keys_nodup s.tables tn (newTable tn) hn)
  | dropTable tn => exact mapDel_keys_nodup s.tables tn hn
  | addColumnWithOptions tn cn ct nl pk uq => exact hwith _ tn _ (halter tn)
  | dropColumn tn cn => exact hwith _ tn _ (halter tn)
  | modifyColumn tn cn ct nl pk uq => exact hwith _ tn _ (halter tn)
  | addIndex tn n => exact hwith _ tn _ (halter tn)
  | dropIndex tn n => exact hwith _ tn _ (halter tn)

/-- A run of builder calls preserves uniqueness of the table keys. -/
theorem applySimOps_keys_nodup (ops : List SimOp) :
    ∀ (s : SchemaState), (s.tables.map Prod.fst).Nodup →
      ((applySimOps ops s).tables.map Prod.fst).Nodup := by
  induction ops with
  | nil => intro s hn; exact hn
  | cons op rest ih =>
      intro s hn
      exact ih (applySimOp s op) (applySimOp_keys_nodup s op hn)

/-- The expected schema binds every table diff under its own name, with
unique keys. -/
theorem buildExpected_shape (models : List ParsedModel) :
    ((buildExpectedSchema models).map Prod.fst).Nodup ∧
    ∀ q ∈ buildExpectedSchema models, (q.2 : TableDiff).name = q.1 := by
  unfold buildExpectedSchema
  suffices haux : ∀ (acc : List (String × TableDiff) × List (String × List (String × IndexDiff))),
      (acc.1.map Prod.fst).Nodup → (∀ q ∈ acc.1, (q.2 : TableDiff).name = q.1) →
      (((models.foldl
        (fun (acc : List (String × TableDiff) × List (String × List (String × IndexDiff))) model =>
          if !model.managed then acc
          else
            let tableName := model.getTableName
            let ti0 := (mapGet acc.2 tableName).getD []
            let colsTi := model.fields.foldl
              (fun (p : List ColumnDiff × List (String × IndexDiff)) f =>
                (p.1 ++ [buildColumnDiff f], mergeFieldIndexes p.2 f.name f.fieldIndexes))
              ([], ti0)
            (mapSet acc.1 tableName ⟨tableName, colsTi.1, colsTi.2⟩,
              mapSet acc.2 tableName colsTi.2))
        acc).1.map Prod.fst).Nodup) ∧
      ∀ q ∈ (models.foldl
        (fun (acc : List (String × TableDiff) × List (String × List (String × IndexDiff))) model =>
          if !model.managed then acc
          else
            let tableName := model.getTableName
            let ti0 := (mapGet acc.2 tableName).getD []
            let colsTi := model.fields.foldl
              (fun (p : List ColumnDiff × List (String × IndexDiff)) f =>
                (p.1 ++ [buildColumnDiff f], mergeFieldIndexes p.2 f.name f.fieldIndexes))
              ([], ti0)
            (mapSet acc.1 tableName ⟨tableName, colsTi.1, colsTi.2⟩,
              mapSet acc.2 tableName colsTi.2))
        acc).1, (q.2 : TableDiff).name = q.1 by
    exact haux ([], []) (by simp) (by simp)
  induction models with
  | nil => intro acc h1 h2; exact ⟨h1, h2⟩
  | cons model rest ih =>
      intro acc h1 h2
      simp only [List.foldl_cons]
      cases hm : model.managed with
      | false =>
          simp only [hm, Bool.not_false, if_true]
          exact ih acc h1 h2
      | true =>
          simp only [hm, Bool.not_true, Bool.false_eq_true, if_false]
          refine ih _ ?_ ?_
          · exact mapSet_keys_nodup _ _ _ h1
          · intro q hq
            rcases mem_mapSet _ _ _ q hq with h | h
            · exact h2 q h
            · rw [h]

/-- Column comparison emits diffs only for the expected table's name. -/
theorem compareColumns_tableName (simulatedTable : Table) (expectedTable : TableDiff) :
    ∀ d ∈ compareColumns simulatedTable expectedTable, d.tableName = expectedTable.name := by
  intro d hd
  unfold compareColumns at hd
  rcases List.mem_append.mp hd with h | h
  · obtain ⟨ec, _, hin⟩ := List.mem_flatMap.mp h
    repeat' first
      | exact absurd hin (List.not_mem_nil _)
      | (rcases List.mem_singleton.mp hin with rfl; rfl)
      | split at hin
  · obtain ⟨p, _, hin⟩ := List.mem_flatMap.mp h
    repeat' first
      | exact absurd hin (List.not_mem_nil _)
      | (rcases List.mem_singleton.mp hin with rfl; rfl)
      | split at hin

/-- Index comparison emits diffs only for the given table name. -/
theorem compareIndexes_tableName (simulatedTable : Table) (expectedTable : TableDiff)
    (tableName : String) :
    ∀ d ∈ compareIndexes simulatedTable expectedTable tableName, d.tableName = tableName := by
  intro d hd
  unfold compareIndexes at hd
  rcases List.mem_append.mp hd with h | h
  · obtain ⟨q, _, hin⟩ := List.mem_flatMap.mp h
    repeat' first
      | exact absurd hin (List.not_mem_nil _)
      | (rcases List.mem_singleton.mp hin with rfl; rfl)
      | split at hin
  · obtain ⟨n, _, hin⟩ := List.mem_flatMap.mp h
    repeat' first
      | exact absurd hin (List.not_mem_nil _)
      | (rcases List.mem_singleton.mp hin with rfl; rfl)
      | split at hin

/-- Builder calls generated from diffs target the diffs' tables. -/
theorem upSimOps_target (ds : List Diff) (k : String) (hds : ∀ d ∈ ds, d.tableName = k) :
    ∀ op ∈ upSimOps ds, SimOp.target op = k := by
  intro op hop
  obtain ⟨d, hd, hop2⟩ := List.mem_flatMap.mp hop
  have hdk := hds d hd
  subst hdk
  repeat' first
    | exact absurd hop2 (List.not_mem_nil _)
    | (rcases List.mem_singleton.mp hop2 with rfl; rfl)
    | split at hop2

/-- Filtering a keyed concatenation of op lists down to one key picks out
exactly that key's contribution. -/
theorem flatMap_filter_key {β : Type} (h : (String × β) → List SimOp) (x : String) :
    ∀ L : List (String × β),
      (∀ q ∈ L, ∀ op ∈ h q, SimOp.target op = q.1) →
      ((L.map Prod.fst).Nodup) →
      (L.flatMap h).filter (fun op => SimOp.target op == x) =
        (match L.find? (fun p => p.1 == x) with
          | some q => h q
          | none => []) := by
  intro L
  induction L with
  | nil => intro _ _; rfl
  | cons q rest ih =>
      intro htg hnd
      simp only [List.flatMap_cons, List.filter_append, List.find?]
      simp only [List.map_cons, List.nodup_cons] at hnd
      cases hqx : q.1 == x with
      | true =>
          have hq1 : q.1 = x := by simpa using hqx
          have hfull : (h q).filter (fun op => SimOp.target op == x) = h q :=
            List.filter_eq_self.mpr (fun op hop => by
              simp [htg q (by simp) op hop, hq1])
          have hrest : (rest.flatMap h).filter (fun op => SimOp.target op == x) = [] := by
            rw [ih (fun p hp op hop => htg p (by simp [hp]) op hop) hnd.2]
            have : rest.find? (fun p => p.1 == x) = none := by
              rw [List.find?_eq_none]
              intro p hp
              intro hc
              have hpx : p.1 = x := by simpa using hc
              exact hnd.1 (hq1 ▸ hpx ▸ List.mem_map.mpr ⟨p, hp, rfl⟩)
            rw [this]
          rw [hfull, hrest, List.append_nil]
      | false =>
          have hq1 : q.1 ≠ x := by simpa using hqx
          have hempty : (h q).filter (fun op => SimOp.target op == x) = [] := by
            rw [List.filter_eq_nil_iff]
            intro op hop
            simp [htg q (by simp) op hop, hq1]
          rw [hempty, List.nil_append]
          exact ih (fun p hp op hop => htg p (by simp [hp]) op hop) hnd.2

/-- Structural view of `CompareSchema`: the expected-table walk followed
by the unexpected-table drops. -/
theorem compareSchema_eq (state : SchemaState) (models : List ParsedModel) :
    compareSchema state models =
      (buildExpectedSchema models).flatMap
        (fun p => match mapGet state.tables p.1 with
          | none => [⟨"create_table", p.1, none, some p.2, none⟩]
          | some simulatedTable =>
              compareColumns simulatedTable p.2 ++ compareIndexes simulatedTable p.2 p.1)
      ++ state.tables.flatMap
        (fun p => if (mapGet (buildExpectedSchema models) p.1).isSome then []
          else [⟨"drop_table", p.1, none, none, none⟩]) := rfl

/-- Materialization distributes over diff-list concatenation. -/
theorem upSimOps_append (l1 l2 : List Diff) :
    upSimOps (l1 ++ l2) = upSimOps l1 ++ upSimOps l2 := by
  unfold upSimOps
  exact List.flatMap_append l1 l2 _

/-- Materialization distributes over a keyed diff emission. -/
theorem upSimOps_flatMap {β : Type} (L : List β) (f : β → List Diff) :
    upSimOps (L.flatMap f) = L.flatMap (fun b => upSimOps (f b)) := by
  unfold upSimOps
  exact List.flatMap_assoc L f _

/-- The builder calls materialized from a full diff run, restricted to one
table, are exactly that table's contribution: the create chain for a
missing expected table, the column and index calls for a present expected
table, the drop for an unexpected present table, and nothing otherwise. -/
theorem compareSchema_ops_filter (state : SchemaState) (models : List ParsedModel)
    (hstate : (state.tables.map Prod.fst).Nodup) (x : String) :
    (upSimOps (compareSchema state models)).filter (fun op => SimOp.target op == x) =
      (match mapGet (buildExpectedSchema models) x, mapGet state.tables x with
        | some et, none => [SimOp.createTableChain x et.columns]
        | some et, some simT => upSimOps (compareColumns simT et ++ compareIndexes simT et x)
        | none, some _ => [SimOp.dropTable x]
        | none, none => []) := by
  obtain ⟨hEnd, hEshape⟩ := buildExpected_shape models
  rw [compareSchema_eq, upSimOps_append, List.filter_append, upSimOps_flatMap, upSimOps_flatMap]
  rw [flatMap_filter_key _ x _ ?htg1 hEnd]
  case htg1 =>
    intro q hq op hop
    refine upSimOps_target _ q.1 ?_ op hop
    intro d hd
    cases hg : mapGet state.tables q.1 with
    | none =>
        rw [hg] at hd
        rcases List.mem_singleton.mp hd with rfl
        rfl
    | some simT =>
        rw [hg] at hd
        rcases List.mem_append.mp hd with h | h
        · rw [compareColumns_tableName simT q.2 d h]
          exact hEshape q hq
        · exact compareIndexes_tableName simT q.2 q.1 d h
  rw [flatMap_filter_key _ x _ ?htg2 hstate]
  case htg2 =>
    intro q hq op hop
    refine upSimOps_target _ q.1 ?_ op hop
    intro d hd
    by_cases hc : (mapGet (buildExpectedSchema models) q.1).isSome = true
    · rw [if_pos hc] at hd
      cases hd
    · rw [if_neg hc] at hd
      rcases List.mem_singleton.mp hd with rfl
      rfl
  have hupnil : upSimOps [] = [] := rfl
  cases hE : (buildExpectedSchema models).find? (fun p => p.1 == x) with
  | some q =>
      obtain ⟨qk, qv⟩ := q
      have hq1 : qk = x := by
        simpa using List.find?_some (p := fun u : String × TableDiff => u.1 == x) hE
      subst hq1
      have hEget : mapGet (buildExpectedSchema models) qk = some qv := by
        unfold mapGet
        rw [hE]
        rfl
      rw [hEget]
      cases hS : state.tables.find? (fun p => p.1 == qk) with
      | some r =>
          obtain ⟨rk, rv⟩ := r
          have hr1 : rk = qk := by
            simpa using List.find?_some (p := fun u : String × Table => u.1 == qk) hS
          subst hr1
          have hSget : mapGet state.tables rk = some rv := by
            unfold mapGet
            rw [hS]
            rfl
          dsimp only
          rw [hSget, hEget]
          simp
          exact hupnil
      | none =>
          have hSget : mapGet state.tables qk = none := by
            unfold mapGet
            rw [hS]
            rfl
          dsimp only
          rw [hSget]
          show upSimOps [⟨"create_table", qk, none, some qv, none⟩] ++ [] = _
          rw [List.append_nil]
          rfl
  | none =>
      have hEget : mapGet (buildExpectedSchema models) x = none := by
        unfold mapGet
        rw [hE]
        rfl
      rw [hEget]
      cases hS : state.tables.find? (fun p => p.1 == x) with
      | some r =>
          obtain ⟨rk, rv⟩ := r
          have hr1 : rk = x := by
            simpa using List.find?_some (p := fun u : String × Table => u.1 == x) hS
          subst hr1
          have hEget2 : mapGet (buildExpectedSchema models) rk = none := hEget
          have hSget : mapGet state.tables rk = some rv := by
            unfold mapGet
            rw [hS]
            rfl
          dsimp only
          rw [hEget2, hSget]
          rfl
      | none =>
          have hSget : mapGet state.tables x = none := by
            unfold mapGet
            rw [hS]
            rfl
          rw [hSget]
          rfl

/-- Folding builder calls over a binding splits along concatenation. -/
theorem applyTableOps_append (l1 l2 : List SimOp) (b : Option Table) :
    applyTableOps (l1 ++ l2) b = applyTableOps l2 (applyTableOps l1 b) := by
  unfold applyTableOps
  exact List.foldl_append _ _ _ _

/-- The column chain of a generated `CreateTable` leaves unrelated columns
alone. -/
theorem addColsFold_mapGet_other (cols : List ColumnDiff) :
    ∀ (t : Table) (x : String), (∀ c ∈ cols, c.name ≠ x) →
      mapGet (cols.foldl
        (fun t c => t.addColumnWithOptions c.name c.colType c.null c.pk c.unique) t).columns x
      = mapGet t.columns x := by
  induction cols with
  | nil => intro t x _; rfl
  | cons c rest ih =>
      intro t x hx
      simp only [List.foldl_cons]
      rw [ih _ x (fun c2 h2 => hx c2 (by simp [h2]))]
      exact mapGet_mapSet_other t.columns c.name _ x (Ne.symm (hx c (by simp)))

/-- The column chain of a generated `CreateTable` binds every listed
column (with its listed values) when the listed names are unique. -/
theorem addColsFold_mapGet_mem (cols : List ColumnDiff) :
    ∀ (t : Table) (ec : ColumnDiff), ec ∈ cols → ((cols.map (fun c => c.name)).Nodup) →
      mapGet (cols.foldl
        (fun t c => t.addColumnWithOptions c.name c.colType c.null c.pk c.unique) t).columns ec.name
      = some ⟨ec.name, ec.colType, ec.null, ec.pk, ec.unique⟩ := by
  induction cols with
  | nil => intro t ec h; cases h
  | cons c rest ih =>
      intro t ec hec hnd
      simp only [List.map_cons, List.nodup_cons] at hnd
      simp only [List.foldl_cons]
      rcases List.mem_cons.mp hec with rfl | hec2
      · rw [addColsFold_mapGet_other rest _ ec.name ?hother]
        case hother =>
          intro c2 h2 hc
          exact hnd.1 (hc ▸ List.mem_map.mpr ⟨c2, h2, rfl⟩)
        exact mapGet_mapSet_self t.columns ec.name _
      · exact ih _ ec hec2 hnd.2

/-- The column chain touches only the column map. -/
theorem addColsFold_indexes (cols : List ColumnDiff) :
    ∀ t : Table, (cols.foldl
      (fun t c => t.addColumnWithOptions c.name c.colType c.null c.pk c.unique) t).indexes
      = t.indexes := by
  induction cols with
  | nil => intro t; rfl
  | cons c rest ih =>
      intro t
      simp only [List.foldl_cons]
      rw [ih]
      rfl

/-- Columns present after the chain come from the input table or the
chain itself. -/
theorem addColsFold_mem (cols : List ColumnDiff) :
    ∀ (t : Table) (p : String × Column),
      p ∈ (cols.foldl
        (fun t c => t.addColumnWithOptions c.name c.colType c.null c.pk c.unique) t).columns →
      p ∈ t.columns ∨ ∃ c ∈ cols, p.1 = c.name := by
  induction cols with
  | nil => intro t p hp; exact Or.inl hp
  | cons c rest ih =>
      intro t p hp
      simp only [List.foldl_cons] at hp
      rcases ih _ p hp with h | ⟨c2, h2, h3⟩
      · rcases mem_mapSet _ _ _ p h with h4 | h4
        · exact Or.inl h4
        · exact Or.inr ⟨c, by simp, by rw [h4]⟩
      · exact Or.inr ⟨c2, by simp [h2], h3⟩

/-- The builder calls materialized from a column comparison, written as
the per-expected-column add/modify calls followed by the per-simulated-
column drop calls. -/
theorem upSimOps_compareColumns (simT : Table) (et : TableDiff) :
    upSimOps (compareColumns simT et) =
      et.columns.flatMap (fun ec =>
        match mapGet simT.columns ec.name with
        | none => [SimOp.addColumnWithOptions et.name ec.name ec.colType ec.null ec.pk ec.unique]
        | some sc =>
            if (sc.colType != ec.colType || sc.null != ec.null || sc.pk != ec.pk
                || sc.unique != ec.unique) = true
            then [SimOp.modifyColumn et.name ec.name ec.colType ec.null ec.pk ec.unique]
            else [])
      ++ simT.columns.flatMap (fun p =>
        if (et.columns.any (fun c => c.name == p.1)) = true then []
        else [SimOp.dropColumn et.name p.1]) := by
  unfold compareColumns
  rw [upSimOps_append, upSimOps_flatMap, upSimOps_flatMap]
  refine congrArg₂ _ ?_ ?_
  · refine congrArg _ (funext fun ec => ?_)
    cases hg : mapGet simT.columns ec.name with
    | none => rfl
    | some sc =>
        dsimp only
        split
        · rfl
        · rfl
  · refine congrArg _ (funext fun p => ?_)
    dsimp only
    split
    · rfl
    · rfl

/-- The builder calls materialized from an index comparison, written as
the per-expected-index add calls followed by the per-simulated-index drop
calls. -/
theorem upSimOps_compareIndexes (simT : Table) (et : TableDiff) (x : String) :
    upSimOps (compareIndexes simT et x) =
      et.indexes.flatMap (fun q =>
        if (simT.indexes.contains q.1) = true then [] else [SimOp.addIndex x q.2.name])
      ++ (dedupNames simT.indexes).flatMap (fun n =>
        if (mapGet et.indexes n).isSome = true then [] else [SimOp.dropIndex x n]) := by
  unfold compareIndexes
  rw [upSimOps_append, upSimOps_flatMap, upSimOps_flatMap]
  refine congrArg₂ _ ?_ ?_
  · refine congrArg _ (funext fun q => ?_)
    split
    · rfl
    · rfl
  · refine congrArg _ (funext fun n => ?_)
    split
    · rfl
    · rfl

/-- Applying the add/modify calls of a column comparison: every compared
column ends up bound with the expected tuple, other columns and the index
list are untouched, and new bindings carry compared names. -/
theorem addModOps_apply (simT : Table) (tn : String) :
    ∀ (cs : List ColumnDiff) (t : Table),
      ((cs.map (fun c => c.name)).Nodup) →
      (∀ ec ∈ cs, mapGet t.columns ec.name = mapGet simT.columns ec.name) →
      ∃ t2, applyTableOps (cs.flatMap (fun ec =>
          match mapGet simT.columns ec.name with
          | none => [SimOp.addColumnWithOptions tn ec.name ec.colType ec.null ec.pk ec.unique]
          | some sc =>
              if (sc.colType != ec.colType || sc.null != ec.null || sc.pk != ec.pk
                  || sc.unique != ec.unique) = true
              then [SimOp.modifyColumn tn ec.name ec.colType ec.null ec.pk ec.unique]
              else []))
        (some t) = some t2 ∧
      (∀ ec ∈ cs, ∃ c : Column, mapGet t2.columns ec.name = some c ∧ c.colType = ec.colType ∧
          c.null = ec.null ∧ c.pk = ec.pk ∧ c.unique = ec.unique) ∧
      (∀ x, (∀ ec ∈ cs, ec.name ≠ x) → mapGet t2.columns x = mapGet t.columns x) ∧
      (∀ p ∈ t2.columns, p ∈ t.columns ∨ ∃ ec ∈ cs, p.1 = ec.name) ∧
      t2.indexes = t.indexes := by
  intro cs
  induction cs with
  | nil =>
      intro t _ _
      exact ⟨t, rfl, fun ec h => absurd h (List.not_mem_nil ec), fun x _ => rfl,
        fun p hp => Or.inl hp, rfl⟩
  | cons ec rest ih =>
      intro t hnd hsame
      simp only [List.map_cons, List.nodup_cons] at hnd
      have hrestname : ∀ ec2 ∈ rest, ec2.name ≠ ec.name := by
        intro ec2 h2 hc
        exact hnd.1 (hc ▸ List.mem_map.mpr ⟨ec2, h2, rfl⟩)
      simp only [List.flatMap_cons]
      rw [applyTableOps_append]
      have hstep : ∃ t1 : Table,
          applyTableOps (match mapGet simT.columns ec.name with
            | none => [SimOp.addColumnWithOptions tn ec.name ec.colType ec.null ec.pk ec.unique]
            | some sc =>
                if (sc.colType != ec.colType || sc.null != ec.null || sc.pk != ec.pk
                    || sc.unique != ec.unique) = true
                then [SimOp.modifyColumn tn ec.name ec.colType ec.null ec.pk ec.unique]
                else []) (some t) = some t1 ∧
          (∃ c : Column, mapGet t1.columns ec.name = some c ∧ c.colType = ec.colType ∧
            c.null = ec.null ∧ c.pk = ec.pk ∧ c.unique = ec.unique) ∧
          (∀ x, x ≠ ec.name → mapGet t1.columns x = mapGet t.columns x) ∧
          (∀ p ∈ t1.columns, p ∈ t.columns ∨ p.1 = ec.name) ∧
          t1.indexes = t.indexes := by
        cases hg : mapGet simT.columns ec.name with
        | none =>
            refine ⟨t.addColumnWithOptions ec.name ec.colType ec.null ec.pk ec.unique, rfl,
              ⟨⟨ec.name, ec.colType, ec.null, ec.pk, ec.unique⟩,
                mapGet_mapSet_self t.columns ec.name _, rfl, rfl, rfl, rfl⟩,
              fun x hx => mapGet_mapSet_other t.columns ec.name _ x hx, ?_, rfl⟩
            intro p hp
            rcases mem_mapSet _ _ _ p hp with h | h
            · exact Or.inl h
            · exact Or.inr (by rw [h])
        | some sc =>
            dsimp only
            split
            · have hts : mapGet t.columns ec.name = some sc := by
                rw [hsame ec (by simp), hg]
              refine ⟨t.modifyColumn ec.name ec.colType ec.null ec.pk ec.unique, rfl, ?_, ?_, ?_, ?_⟩
              · unfold Table.modifyColumn
                rw [hts]
                exact ⟨_, mapGet_mapSet_self t.columns ec.name _, rfl, rfl, rfl, rfl⟩
              · intro x hx
                unfold Table.modifyColumn
                rw [hts]
                exact mapGet_mapSet_other t.columns ec.name _ x hx
              · intro p hp
                unfold Table.modifyColumn at hp
                rw [hts] at hp
                rcases mem_mapSet _ _ _ p hp with h | h
                · exact Or.inl h
                · exact Or.inr (by rw [h])
              · unfold Table.modifyColumn
                rw [hts]
            · rename_i hcond
              have heq : sc.colType = ec.colType ∧ sc.null = ec.null ∧ sc.pk = ec.pk
                  ∧ sc.unique = ec.unique := by
                simp only [Bool.or_eq_true, bne_iff_ne, ne_eq, not_or] at hcond
                push_neg at hcond
                exact ⟨hcond.1.1.1, hcond.1.1.2, hcond.1.2, hcond.2⟩
              refine ⟨t, rfl, ⟨sc, ?_, heq.1, heq.2.1, heq.2.2.1, heq.2.2.2⟩,
                fun x _ => rfl, fun p hp => Or.inl hp, rfl⟩
              rw [hsame ec (by simp), hg]
      obtain ⟨t1, ht1, hbound, hother1, hmem1, hidx1⟩ := hstep
      rw [ht1]
      have hsame2 : ∀ ec2 ∈ rest, mapGet t1.columns ec2.name = mapGet simT.columns ec2.name := by
        intro ec2 h2
        rw [hother1 ec2.name (hrestname ec2 h2)]
        exact hsame ec2 (by simp [h2])
      obtain ⟨t2, ht2, hall2, hother2, hmem2, hidx2⟩ := ih t1 hnd.2 hsame2
      refine ⟨t2, ht2, ?_, ?_, ?_, by rw [hidx2, hidx1]⟩
      · intro ec2 hec2
        rcases List.mem_cons.mp hec2 with rfl | h2
        · obtain ⟨c, hc, h3, h4, h5, h6⟩ := hbound
          refine ⟨c, ?_, h3, h4, h5, h6⟩
          rw [hother2 ec2.name (fun e3 h3 => hrestname e3 h3), hc]
        · exact hall2 ec2 h2
      · intro x hx
        rw [hother2 x (fun e3 h3 => hx e3 (by simp [h3])), hother1 x (Ne.symm (hx ec (by simp)))]
      · intro p hp
        rcases hmem2 p hp with h | ⟨ec2, h2, h3⟩
        · rcases hmem1 p h with h4 | h4
          · exact Or.inl h4
          · exact Or.inr ⟨ec, by simp, h4⟩
        · exact Or.inr ⟨ec2, by simp [h2], h3⟩

/-- A keyed emission whose every entry emits nothing is empty. -/
theorem flatMap_nil_of_forall {α β : Type} (l : List α) (f : α → List β)
    (h : ∀ b ∈ l, f b = []) : l.flatMap f = [] :=
  List.flatMap_eq_nil_iff.mpr h

/-- A bound key retrieves something. -/
theorem mapGet_isSome_of_mem {α : Type} (m : List (String × α)) (q : String × α)
    (hq : q ∈ m) : (mapGet m q.1).isSome = true := by
  unfold mapGet
  have hf : (List.find? (fun p => p.1 == q.1) m).isSome = true :=
    List.find?_isSome.mpr ⟨q, hq, by simp⟩
  cases hfind : List.find? (fun p => p.1 == q.1) m with
  | none => rw [hfind] at hf; cases hf
  | some r => rfl

/-- Applying the drop calls of a column comparison: expected-name bindings
are untouched, survivors either carry an expected name or were never
listed for dropping, and the index list is untouched. -/
theorem dropColOps_apply (et : TableDiff) (tn : String) :
    ∀ (ps : List (String × Column)) (t : Table),
      ∃ t2, applyTableOps (ps.flatMap (fun p =>
          if (et.columns.any (fun c => c.name == p.1)) = true then []
          else [SimOp.dropColumn tn p.1])) (some t) = some t2 ∧
        (∀ x, (et.columns.any (fun c => c.name == x)) = true →
          mapGet t2.columns x = mapGet t.columns x) ∧
        (∀ p ∈ t2.columns, p ∈ t.columns ∧
          ∀ q ∈ ps, q.1 = p.1 → (et.columns.any (fun c => c.name == p.1)) = true) ∧
        t2.indexes = t.indexes := by
  intro ps
  induction ps with
  | nil =>
      intro t
      exact ⟨t, rfl, fun x _ => rfl, fun p hp => ⟨hp, fun q hq => absurd hq (List.not_mem_nil q)⟩,
        rfl⟩
  | cons p0 rest ih =>
      intro t
      simp only [List.flatMap_cons]
      rw [applyTableOps_append]
      cases hg : et.columns.any (fun c => c.name == p0.1) with
      | true =>
          simp only [hg]
          obtain ⟨t2, h1, h2, h3, h4⟩ := ih t
          refine ⟨t2, h1, h2, ?_, h4⟩
          intro p hp
          obtain ⟨hmem, hrest⟩ := h3 p hp
          refine ⟨hmem, ?_⟩
          intro q hq hqp
          rcases List.mem_cons.mp hq with rfl | hq2
          · exact hqp ▸ hg
          · exact hrest q hq2 hqp
      | false =>
          simp only [hg, Bool.false_eq_true, if_false]
          obtain ⟨t2, h1, h2, h3, h4⟩ := ih (t.dropColumn p0.1)
          refine ⟨t2, h1, ?_, ?_, h4⟩
          · intro x hx
            rw [h2 x hx]
            show mapGet (mapDel t.columns p0.1) x = mapGet t.columns x
            refine mapGet_mapDel_other t.columns p0.1 x ?_
            intro hc
            rw [hc] at hx
            rw [hx] at hg
            cases hg
          · intro p hp
            obtain ⟨hmem, hrest⟩ := h3 p hp
            obtain ⟨hmem2, hne⟩ := mem_mapDel t.columns p0.1 p hmem
            refine ⟨hmem2, ?_⟩
            intro q hq hqp
            rcases List.mem_cons.mp hq with rfl | hq2
            · exact absurd hqp.symm hne
            · exact hrest q hq2 hqp

/-- Applying the add calls of an index comparison: the missing expected
index names are appended to the table's index list, nothing else moves. -/
theorem addIdxOps_apply (simIdx : List String) (tn : String) :
    ∀ (qs : List (String × IndexDiff)) (t : Table),
      applyTableOps (qs.flatMap (fun q =>
        if (simIdx.contains q.1) = true then [] else [SimOp.addIndex tn q.2.name])) (some t)
      = some { t with indexes := t.indexes ++ qs.flatMap (fun q =>
          if (simIdx.contains q.1) = true then [] else [q.2.name]) } := by
  intro qs
  induction qs with
  | nil =>
      intro t
      show some t = _
      simp
  | cons q0 rest ih =>
      intro t
      simp only [List.flatMap_cons]
      rw [applyTableOps_append]
      by_cases hg : simIdx.contains q0.1 = true
      · rw [if_pos hg, if_pos hg]
        show applyTableOps _ (some t) = _
        rw [ih t, List.nil_append]
      · rw [if_neg hg, if_neg hg]
        show applyTableOps _ (some (t.addIndex q0.2.name)) = _
        rw [ih (t.addIndex q0.2.name)]
        show some _ = some _
        refine congrArg _ ?_
        show ({ t with indexes := (t.indexes ++ [q0.2.name]) ++ _ } : Table) = _
        rw [List.append_assoc]

/-- Applying the drop calls of an index comparison: the columns are
untouched and a name survives exactly when it was present and is not
dropped. -/
theorem dropIdxOps_apply (etIdx : List (String × IndexDiff)) (tn : String) :
    ∀ (ns : List String) (t : Table),
      ∃ t2, applyTableOps (ns.flatMap (fun n =>
          if (mapGet etIdx n).isSome = true then [] else [SimOp.dropIndex tn n])) (some t)
        = some t2 ∧
      t2.columns = t.columns ∧
      (∀ m, m ∈ t2.indexes ↔
        m ∈ t.indexes ∧ ∀ n ∈ ns, (mapGet etIdx n).isSome = false → m ≠ n) := by
  intro ns
  induction ns with
  | nil =>
      intro t
      refine ⟨t, rfl, rfl, ?_⟩
      intro m
      constructor
      · intro h
        exact ⟨h, fun n hn => absurd hn (List.not_mem_nil n)⟩
      · intro h
        exact h.1
  | cons n0 rest ih =>
      intro t
      simp only [List.flatMap_cons]
      rw [applyTableOps_append]
      cases hg : (mapGet etIdx n0).isSome with
      | true =>
          simp only [hg]
          obtain ⟨t2, h1, h2, h3⟩ := ih t
          refine ⟨t2, h1, h2, ?_⟩
          intro m
          rw [h3 m]
          constructor
          · intro ⟨ha, hb⟩
            refine ⟨ha, ?_⟩
            intro n hn hfalse
            rcases List.mem_cons.mp hn with rfl | hn2
            · rw [hg] at hfalse
              cases hfalse
            · exact hb n hn2 hfalse
          · intro ⟨ha, hb⟩
            exact ⟨ha, fun n hn hfalse => hb n (by simp [hn]) hfalse⟩
      | false =>
          simp only [hg, Bool.false_eq_true, if_false]
          obtain ⟨t2, h1, h2, h3⟩ := ih (t.dropIndexByName n0)
          refine ⟨t2, h1, h2, ?_⟩
          intro m
          rw [h3 m]
          have hfil : m ∈ (t.dropIndexByName n0).indexes ↔ m ∈ t.indexes ∧ m ≠ n0 := by
            show m ∈ t.indexes.filter (fun n => n != n0) ↔ _
            rw [List.mem_filter]
            simp
          rw [hfil]
          constructor
          · intro ⟨⟨ha, hne⟩, hb⟩
            refine ⟨ha, ?_⟩
            intro n hn hfalse
            rcases List.mem_cons.mp hn with rfl | hn2
            · exact hne
            · exact hb n hn2 hfalse
          · intro ⟨ha, hb⟩
            exact ⟨⟨ha, hb n0 (by simp) hg⟩, fun n hn hfalse => hb n (by simp [hn]) hfalse⟩

/-- The per-field index merge keeps every entry named after its key. -/
theorem mergeFieldIndexes_shape (fn : String) :
    ∀ (idxs : List IndexInfo) (ti : List (String × IndexDiff)),
      (∀ r ∈ ti, (r.2 : IndexDiff).name = r.1) →
      ∀ r ∈ mergeFieldIndexes ti fn idxs, (r.2 : IndexDiff).name = r.1 := by
  intro idxs
  induction idxs with
  | nil => intro ti h; exact h
  | cons i rest ih =>
      intro ti h
      show ∀ r ∈ mergeFieldIndexes _ fn rest, _
      refine ih _ ?_
      dsimp only
      cases hg : mapGet ti i.name with
      | some ex =>
          intro r hr
          rcases mem_mapSet _ _ _ r hr with hold | hnew
          · exact h r hold
          · rw [hnew]
            exact h (i.name, ex) (mapGet_mem ti i.name ex hg)
      | none =>
          intro r hr
          rcases mem_mapSet _ _ _ r hr with hold | hnew
          · exact h r hold
          · rw [hnew]

/-- The per-model fields fold keeps every accumulated index entry named
after its key. -/
theorem fieldsFold_idx_shape :
    ∀ (fields : List ModelField) (p : List ColumnDiff × List (String × IndexDiff)),
      (∀ r ∈ p.2, (r.2 : IndexDiff).name = r.1) →
      ∀ r ∈ (fields.foldl
        (fun (p : List ColumnDiff × List (String × IndexDiff)) f =>
          (p.1 ++ [buildColumnDiff f], mergeFieldIndexes p.2 f.name f.fieldIndexes)) p).2,
        (r.2 : IndexDiff).name = r.1 := by
  intro fields
  induction fields with
  | nil => intro p h; exact h
  | cons f rest ih =>
      intro p h
      rw [List.foldl_cons]
      exact ih _ (mergeFieldIndexes_shape f.name f.fieldIndexes p.2 h)

/-- Every index entry of an expected table is bound under its own name. -/
theorem buildExpected_idx_shape (models : List ParsedModel) :
    ∀ q ∈ buildExpectedSchema models,
      ∀ r ∈ (q.2 : TableDiff).indexes, (r.2 : IndexDiff).name = r.1 := by
  unfold buildExpectedSchema
  suffices haux : ∀ (acc : List (String × TableDiff) × List (String × List (String × IndexDiff))),
      (∀ q ∈ acc.1, ∀ r ∈ (q.2 : TableDiff).indexes, (r.2 : IndexDiff).name = r.1) →
      (∀ b ∈ acc.2, ∀ r ∈ (b.2 : List (String × IndexDiff)), (r.2 : IndexDiff).name = r.1) →
      ∀ q ∈ (models.foldl
        (fun (acc : List (String × TableDiff) × List (String × List (String × IndexDiff))) model =>
          if !model.managed then acc
          else
            let tableName := model.getTableName
            let ti0 := (mapGet acc.2 tableName).getD []
            let colsTi := model.fields.foldl
              (fun (p : List ColumnDiff × List (String × IndexDiff)) f =>
                (p.1 ++ [buildColumnDiff f], mergeFieldIndexes p.2 f.name f.fieldIndexes))
              ([], ti0)
            (mapSet acc.1 tableName ⟨tableName, colsTi.1, colsTi.2⟩,
              mapSet acc.2 tableName colsTi.2))
        acc).1, ∀ r ∈ (q.2 : TableDiff).indexes, (r.2 : IndexDiff).name = r.1 by
    exact haux ([], []) (by simp) (by simp)
  induction models with
  | nil => intro acc h1 _; exact h1
  | cons model rest ih =>
      intro acc h1 h2
      simp only [List.foldl_cons]
      cases hm : model.managed with
      | false =>
          simp only [hm, Bool.not_false, if_true]
          exact ih acc h1 h2
      | true =>
          simp only [hm, Bool.not_true, Bool.false_eq_true, if_false]
          have hti0 : ∀ r ∈ (mapGet acc.2 model.getTableName).getD [],
              (r.2 : IndexDiff).name = r.1 := by
            cases hg : mapGet acc.2 model.getTableName with
            | none => intro r hr; cases hr
            | some v =>
                intro r hr
                exact h2 (model.getTableName, v) (mapGet_mem acc.2 model.getTableName v hg) r hr
          have hstep := fieldsFold_idx_shape model.fields ([], (mapGet acc.2 model.getTableName).getD []) hti0
          refine ih _ ?_ ?_
          · intro q hq
            rcases mem_mapSet _ _ _ q hq with hold | hnew
            · exact h1 q hold
            · rw [hnew]
              exact hstep
          · intro b hb
            rcases mem_mapSet _ _ _ b hb with hold | hnew
            · exact h2 b hold
            · rw [hnew]
              exact hstep

/-- For a table present in both the simulated state and the expected
schema, applying the materialized builder calls of its own column and
index comparisons produces a table against which both comparisons are
empty (given distinct expected column names and the expected index map
binding each entry under its own name). -/
theorem table_converges_present (simT : Table) (et : TableDiff) (x : String)
    (hcolnd : ((et.columns.map (fun c => c.name)).Nodup))
    (hshape : ∀ r ∈ et.indexes, (r.2 : IndexDiff).name = r.1) :
    ∃ t2, applyTableOps (upSimOps (compareColumns simT et ++ compareIndexes simT et x))
        (some simT) = some t2 ∧
      compareColumns t2 et = [] ∧ compareIndexes t2 et x = [] := by
  obtain ⟨tA, hA, hAbound, hAother, hAmem, hAidx⟩ :=
    addModOps_apply simT et.name et.columns simT hcolnd (fun _ _ => rfl)
  obtain ⟨tB, hB, hBsame, hBmem, hBidx⟩ := dropColOps_apply et et.name simT.columns tA
  have hC := addIdxOps_apply simT.indexes x et.indexes tB
  obtain ⟨tD, hD, hDcols, hDidx⟩ := dropIdxOps_apply et.indexes x (dedupNames simT.indexes)
    { tB with indexes := tB.indexes ++ et.indexes.flatMap (fun q =>
        if (simT.indexes.contains q.1) = true then [] else [q.2.name]) }
  refine ⟨tD, ?_, ?_, ?_⟩
  · rw [upSimOps_append, applyTableOps_append]
    rw [upSimOps_compareColumns, applyTableOps_append, hA, hB]
    rw [upSimOps_compareIndexes, applyTableOps_append, hC, hD]
  · have hcc : compareColumns tD et =
        et.columns.flatMap (fun expectedCol =>
          match mapGet tD.columns expectedCol.name with
          | none => [⟨"add_column", et.name, some expectedCol, none, none⟩]
          | some simCol =>
              if simCol.colType != expectedCol.colType || simCol.null != expectedCol.null
                  || simCol.pk != expectedCol.pk || simCol.unique != expectedCol.unique then
                [⟨"modify_column", et.name,
                  some ⟨expectedCol.name, expectedCol.colType, simCol.colType,
                    expectedCol.null, expectedCol.pk, expectedCol.unique⟩, none, none⟩]
              else []) ++
        tD.columns.flatMap (fun p =>
          if (et.columns.any (fun c => c.name == p.1)) then []
          else [⟨"drop_column", et.name, some ⟨p.1, "", "", false, false, false⟩, none,
            none⟩]) := rfl
    have haddmod : ∀ ec ∈ et.columns,
        (match mapGet tD.columns ec.name with
          | none => [(⟨"add_column", et.name, some ec, none, none⟩ : Diff)]
          | some simCol =>
              if simCol.colType != ec.colType || simCol.null != ec.null
                  || simCol.pk != ec.pk || simCol.unique != ec.unique then
                [⟨"modify_column", et.name,
                  some ⟨ec.name, ec.colType, simCol.colType,
                    ec.null, ec.pk, ec.unique⟩, none, none⟩]
              else []) = [] := by
      intro ec hec
      have hany : (et.columns.any (fun c => c.name == ec.name)) = true :=
        List.any_eq_true.mpr ⟨ec, hec, by simp⟩
      obtain ⟨c, hc, h3, h4, h5, h6⟩ := hAbound ec hec
      have hget : mapGet tD.columns ec.name = some c := by
        rw [hDcols]
        show mapGet tB.columns ec.name = some c
        rw [hBsame ec.name hany, hc]
      rw [hget]
      simp [h3, h4, h5, h6]
    have hdrops : ∀ p ∈ tD.columns,
        (if (et.columns.any (fun c => c.name == p.1)) then ([] : List Diff)
          else [⟨"drop_column", et.name, some ⟨p.1, "", "", false, false, false⟩, none,
            none⟩]) = [] := by
      intro p hp
      have hpB : p ∈ tB.columns := by
        rw [hDcols] at hp
        exact hp
      obtain ⟨hpA, hforall⟩ := hBmem p hpB
      have hany : (et.columns.any (fun c => c.name == p.1)) = true := by
        rcases hAmem p hpA with hold | ⟨ec, hec, hname⟩
        · exact hforall p hold rfl
        · exact List.any_eq_true.mpr ⟨ec, hec, by simp [hname]⟩
      rw [if_pos hany]
    rw [hcc, flatMap_nil_of_forall _ _ haddmod, flatMap_nil_of_forall _ _ hdrops]
    rfl
  · have hci : compareIndexes tD et x =
        et.indexes.flatMap (fun p =>
          if tD.indexes.contains p.1 then []
          else [⟨"add_index", x, none, none, some p.2⟩]) ++
        (dedupNames tD.indexes).flatMap (fun n =>
          if (mapGet et.indexes n).isSome then []
          else [⟨"drop_index", x, none, none, some ⟨n, false, []⟩⟩]) := rfl
    have hadds : ∀ q ∈ et.indexes,
        (if tD.indexes.contains q.1 then ([] : List Diff)
          else [⟨"add_index", x, none, none, some q.2⟩]) = [] := by
      intro q hq
      have hqSome : (mapGet et.indexes q.1).isSome = true := mapGet_isSome_of_mem et.indexes q hq
      have hmemD : q.1 ∈ tD.indexes := by
        refine (hDidx q.1).mpr ⟨?_, ?_⟩
        · show q.1 ∈ tB.indexes ++ et.indexes.flatMap _
          by_cases hcont : simT.indexes.contains q.1 = true
          · refine List.mem_append.mpr (Or.inl ?_)
            rw [hBidx, hAidx]
            exact List.elem_iff.mp hcont
          · refine List.mem_append.mpr (Or.inr ?_)
            refine List.mem_flatMap.mpr ⟨q, hq, ?_⟩
            rw [if_neg hcont, hshape q hq]
            simp
        · intro n hn hfalse hqn
          rw [← hqn, hqSome] at hfalse
          cases hfalse
      rw [if_pos (List.elem_iff.mpr hmemD)]
    have hdropsI : ∀ n ∈ dedupNames tD.indexes,
        (if (mapGet et.indexes n).isSome then ([] : List Diff)
          else [⟨"drop_index", x, none, none, some ⟨n, false, []⟩⟩]) = [] := by
      intro n hn
      have hnD : n ∈ tD.indexes := (mem_dedupNames n tD.indexes).mp hn
      obtain ⟨hnC, hprot⟩ := (hDidx n).mp hnD
      have hsome : (mapGet et.indexes n).isSome = true := by
        have hnC2 : n ∈ tB.indexes ++ et.indexes.flatMap (fun q =>
            if (simT.indexes.contains q.1) = true then [] else [q.2.name]) := hnC
        rcases List.mem_append.mp hnC2 with hleft | hright
        · rw [hBidx, hAidx] at hleft
          by_cases hs : (mapGet et.indexes n).isSome = true
          · exact hs
          · have hsf : (mapGet et.indexes n).isSome = false := by
              revert hs
              cases (mapGet et.indexes n).isSome <;> simp
            exact absurd rfl (hprot n ((mem_dedupNames n simT.indexes).mpr hleft) hsf)
        · obtain ⟨q', hq', hnq⟩ := List.mem_flatMap.mp hright
          by_cases hcont : simT.indexes.contains q'.1 = true
          · rw [if_pos hcont] at hnq
            cases hnq
          · rw [if_neg hcont] at hnq
            rcases List.mem_singleton.mp hnq with rfl
            rw [hshape q' hq']
            exact mapGet_isSome_of_mem et.indexes q' hq'
      rw [if_pos hsome]
    rw [hci, flatMap_nil_of_forall _ _ hadds, flatMap_nil_of_forall _ _ hdropsI]
    rfl

/-- For an expected table missing from the simulated state, the generated
create chain produces a table against which both comparisons are empty —
provided the expected table declares no indexes, since the chain emits
only the columns. -/
theorem table_converges_create (et : TableDiff) (x : String)
    (hcolnd : ((et.columns.map (fun c => c.name)).Nodup))
    (hidx : et.indexes = []) :
    ∃ t2, applyTableOps [SimOp.createTableChain x et.columns] none = some t2 ∧
      compareColumns t2 et = [] ∧ compareIndexes t2 et x = [] := by
  refine ⟨_, rfl, ?_, ?_⟩
  · have hcc : ∀ t2 : Table, compareColumns t2 et =
        et.columns.flatMap (fun expectedCol =>
          match mapGet t2.columns expectedCol.name with
          | none => [⟨"add_column", et.name, some expectedCol, none, none⟩]
          | some simCol =>
              if simCol.colType != expectedCol.colType || simCol.null != expectedCol.null
                  || simCol.pk != expectedCol.pk || simCol.unique != expectedCol.unique then
                [⟨"modify_column", et.name,
                  some ⟨expectedCol.name, expectedCol.colType, simCol.colType,
                    expectedCol.null, expectedCol.pk, expectedCol.unique⟩, none, none⟩]
              else []) ++
        t2.columns.flatMap (fun p =>
          if (et.columns.any (fun c => c.name == p.1)) then []
          else [⟨"drop_column", et.name, some ⟨p.1, "", "", false, false, false⟩, none,
            none⟩]) := fun _ => rfl
    rw [hcc]
    rw [flatMap_nil_of_forall _ _ ?haddmod, flatMap_nil_of_forall _ _ ?hdrops]
    case haddmod =>
      intro ec hec
      rw [addColsFold_mapGet_mem et.columns (newTable x) ec hec hcolnd]
      simp
    case hdrops =>
      intro p hp
      rcases addColsFold_mem et.columns (newTable x) p hp with hnil | ⟨c, hc, hname⟩
      · cases hnil
      · rw [if_pos (List.any_eq_true.mpr ⟨c, hc, by simp [hname]⟩)]
    rfl
  · have hci : ∀ t2 : Table, compareIndexes t2 et x =
        et.indexes.flatMap (fun p =>
          if t2.indexes.contains p.1 then []
          else [⟨"add_index", x, none, none, some p.2⟩]) ++
        (dedupNames t2.indexes).flatMap (fun n =>
          if (mapGet et.indexes n).isSome then []
          else [⟨"drop_index", x, none, none, some ⟨n, false, []⟩⟩]) := fun _ => rfl
    rw [hci, hidx, addColsFold_indexes et.columns (newTable x)]
    rfl

/-- C1 (amended): the convergence loop closes in one round — after
materializing the diff list as builder calls and replaying them onto the
simulated state, recomputing the diff yields the empty list — provided
the state's table keys are unique, every expected table's column names
are distinct, and every expected table missing from the state declares no
indexes.  The last hypothesis is forced by the generator flaw exhibited
in the counterexample: a generated `create_table` emits only the columns
of the expected table, never its indexes. -/
theorem converge_one_step (state : SchemaState) (models : List ParsedModel)
    (hnd : (state.tables.map Prod.fst).Nodup)
    (hcols : ∀ q ∈ buildExpectedSchema models,
      (((q.2 : TableDiff).columns.map (fun c => c.name)).Nodup))
    (hnew : ∀ q ∈ buildExpectedSchema models,
      mapGet state.tables q.1 = none → (q.2 : TableDiff).indexes = []) :
    compareSchema (applySimOps (upSimOps (compareSchema state models)) state) models = [] := by
  obtain ⟨hEnd, hEname⟩ := buildExpected_shape models
  have hS2nd := applySimOps_keys_nodup (upSimOps (compareSchema state models)) state hnd
  have hbind : ∀ x,
      mapGet (applySimOps (upSimOps (compareSchema state models)) state).tables x
      = applyTableOps (match mapGet (buildExpectedSchema models) x, mapGet state.tables x with
          | some et, none => [SimOp.createTableChain x et.columns]
          | some et, some simT => upSimOps (compareColumns simT et ++ compareIndexes simT et x)
          | none, some _ => [SimOp.dropTable x]
          | none, none => []) (mapGet state.tables x) := by
    intro x
    rw [applySimOps_binding, compareSchema_ops_filter state models hnd x]
  rw [compareSchema_eq]
  rw [flatMap_nil_of_forall _ _ ?hpart1, flatMap_nil_of_forall _ _ ?hpart2]
  case hpart1 =>
    intro q hq
    have hqE : mapGet (buildExpectedSchema models) q.1 = some q.2 :=
      nodup_mem_mapGet _ hEnd q hq
    cases hS : mapGet state.tables q.1 with
    | some simT =>
        have hb := hbind q.1
        rw [hqE, hS] at hb
        dsimp only at hb
        obtain ⟨t2, heq, hc1, hc2⟩ :=
          table_converges_present simT q.2 q.1 (hcols q hq) (buildExpected_idx_shape models q hq)
        rw [heq] at hb
        show (match
            mapGet (applySimOps (upSimOps (compareSchema state models)) state).tables q.1 with
          | none => [(⟨"create_table", q.1, none, some q.2, none⟩ : Diff)]
          | some simulatedTable =>
              compareColumns simulatedTable q.2 ++ compareIndexes simulatedTable q.2 q.1) = []
        rw [hb]
        dsimp only
        rw [hc1, hc2]
        rfl
    | none =>
        have hb := hbind q.1
        rw [hqE, hS] at hb
        dsimp only at hb
        obtain ⟨t2, heq, hc1, hc2⟩ :=
          table_converges_create q.2 q.1 (hcols q hq) (hnew q hq hS)
        rw [heq] at hb
        show (match
            mapGet (applySimOps (upSimOps (compareSchema state models)) state).tables q.1 with
          | none => [(⟨"create_table", q.1, none, some q.2, none⟩ : Diff)]
          | some simulatedTable =>
              compareColumns simulatedTable q.2 ++ compareIndexes simulatedTable q.2 q.1) = []
        rw [hb]
        dsimp only
        rw [hc1, hc2]
        rfl
  case hpart2 =>
    intro p hp
    have hpS2 : mapGet (applySimOps (upSimOps (compareSchema state models)) state).tables p.1
        = some p.2 := nodup_mem_mapGet _ hS2nd p hp
    cases hE2 : mapGet (buildExpectedSchema models) p.1 with
    | some et => simp
    | none =>
        exfalso
        have hb := hbind p.1
        rw [hE2] at hb
        cases hS : mapGet state.tables p.1 with
        | some simT =>
            rw [hS] at hb
            dsimp only at hb
            rw [hpS2] at hb
            exact Option.noConfusion (hb.trans rfl)
        | none =>
            rw [hS] at hb
            dsimp only at hb
            rw [hpS2] at hb
            exact Option.noConfusion (hb.trans rfl)
  rfl

/-- Witness: `converge_one_step` applied to the concrete state holding
`user(age:int)` and the target model declaring `Age uint`: the hypotheses
hold by computation and one materialize-and-replay round leaves an empty
diff. -/
theorem converge_one_step_witness :
    ((ageIntState.tables.map Prod.fst).Nodup ∧
      (∀ q ∈ buildExpectedSchema ageUintModels,
        (((q.2 : TableDiff).columns.map (fun c => c.name)).Nodup)) ∧
      (∀ q ∈ buildExpectedSchema ageUintModels,
        mapGet ageIntState.tables q.1 = none → (q.2 : TableDiff).indexes = [])) ∧
    compareSchema (applySimOps (upSimOps (compareSchema ageIntState ageUintModels))
      ageIntState) ageUintModels = [] :=
  ⟨⟨by decide, by decide, by decide⟩,
    converge_one_step ageIntState ageUintModels (by decide) (by decide) (by decide)⟩

/-- C4 (amended): a column present in both the simulated and expected
table whose (type, null, pk, unique) tuple differs yields a
`modify_column` diff in the full comparison whose payload carries the new
values and, of the prior state, only the prior type (`OldType`): the
prior null/pk/unique flags have no field in `ColumnDiff` and are not
carried (the loss the counterexample exhibits). -/
theorem modify_column_payload (state : SchemaState) (models : List ParsedModel)
    (tn : String) (et : TableDiff) (simT : Table) (ec : ColumnDiff) (sc : Column)
    (hE : mapGet (buildExpectedSchema models) tn = some et)
    (hS : mapGet state.tables tn = some simT)
    (hec : ec ∈ et.columns)
    (hsc : mapGet simT.columns ec.name = some sc)
    (hdiff : (sc.colType != ec.colType || sc.null != ec.null || sc.pk != ec.pk
        || sc.unique != ec.unique) = true) :
    (⟨"modify_column", et.name,
      some ⟨ec.name, ec.colType, sc.colType, ec.null, ec.pk, ec.unique⟩,
      none, none⟩ : Diff) ∈ compareSchema state models := by
  rw [compareSchema_eq]
  refine List.mem_append.mpr (Or.inl ?_)
  refine List.mem_flatMap.mpr ⟨(tn, et), mapGet_mem _ _ _ hE, ?_⟩
  show (⟨"modify_column", et.name,
      some ⟨ec.name, ec.colType, sc.colType, ec.null, ec.pk, ec.unique⟩,
      none, none⟩ : Diff) ∈ match mapGet state.tables tn with
    | none => [(⟨"create_table", tn, none, some et, none⟩ : Diff)]
    | some simulatedTable => compareColumns simulatedTable et ++ compareIndexes simulatedTable et tn
  rw [hS]
  dsimp only
  refine List.mem_append.mpr (Or.inl ?_)
  have hcc : compareColumns simT et =
      et.columns.flatMap (fun expectedCol =>
        match mapGet simT.columns expectedCol.name with
        | none => [⟨"add_column", et.name, some expectedCol, none, none⟩]
        | some simCol =>
            if simCol.colType != expectedCol.colType || simCol.null != expectedCol.null
                || simCol.pk != expectedCol.pk || simCol.unique != expectedCol.unique then
              [⟨"modify_column", et.name,
                some ⟨expectedCol.name, expectedCol.colType, simCol.colType,
                  expectedCol.null, expectedCol.pk, expectedCol.unique⟩, none, none⟩]
            else []) ++
      simT.columns.flatMap (fun p =>
        if (et.columns.any (fun c => c.name == p.1)) then []
        else [⟨"drop_column", et.name, some ⟨p.1, "", "", false, false, false⟩, none,
          none⟩]) := rfl
  rw [hcc]
  refine List.mem_append.mpr (Or.inl ?_)
  refine List.mem_flatMap.mpr ⟨ec, hec, ?_⟩
  rw [hsc]
  dsimp only
  rw [if_pos hdiff]
  exact List.mem_singleton.mpr rfl

/-- Witness: `modify_column_payload` applied to the concrete state
`user(age:int)` against the target `Age uint` (whose SQL type is
`bigint`): every hypothesis holds by computation and the emitted
`modify_column` diff is in the comparison. -/
theorem modify_column_payload_witness :
    (mapGet (buildExpectedSchema ageUintModels) "user"
        = some ⟨"user", [⟨"age", "bigint", "", false, false, false⟩], []⟩ ∧
      mapGet ageIntState.tables "user"
        = some ⟨"user", [("age", ⟨"age", "int", false, false, false⟩)], [], []⟩ ∧
      (⟨"age", "bigint", "", false, false, false⟩ : ColumnDiff)
        ∈ (⟨"user", [⟨"age", "bigint", "", false, false, false⟩], []⟩ : TableDiff).columns ∧
      mapGet (⟨"user", [("age", ⟨"age", "int", false, false, false⟩)], [], []⟩ : Table).columns
        "age" = some ⟨"age", "int", false, false, false⟩ ∧
      (("int" : String) != "bigint" || (false : Bool) != false || (false : Bool) != false
        || (false : Bool) != false) = true) ∧
    (⟨"modify_column", "user", some ⟨"age", "bigint", "int", false, false, false⟩,
      none, none⟩ : Diff) ∈ compareSchema ageIntState ageUintModels :=
  ⟨⟨by decide, by decide, by decide, by decide, by decide⟩,
    modify_column_payload ageIntState ageUintModels "user"
      ⟨"user", [⟨"age", "bigint", "", false, false, false⟩], []⟩
      ⟨"user", [("age", ⟨"age", "int", false, false, false⟩)], [], []⟩
      ⟨"age", "bigint", "", false, false, false⟩
      ⟨"age", "int", false, false, false⟩
      (by decide) (by decide) (by decide) (by decide) (by decide)⟩
